import Mathlib

/-!
Verification of the I/O-buffer lowering logic of the Xilinx Spartan-6 platform
(`nmigen/vendor/xilinx_spartan6.py`).

The elaboration layer is embedded shallowly: a `Pin` record mirrors the pin
descriptor consumed by `_get_xdr_buffer`, a small expression language mirrors
the signal values bound to primitive ports (`pin.i[bit]`, `~clk`, `Const(0)`,
and so on), and an explicit elaboration state threads the fresh-signal supply
and the lists of emitted primitive instances and combinational assignments.
Each helper of the source (`get_dff`, `get_iddr`, `get_oddr`, `get_ixor`,
`get_oxor`), the central `_get_xdr_buffer` routine, and the public topology
entry points are translated function by function.  String literals (primitive
kinds, parameter names, port names, feature names) are kept exactly as in the
source.  Signal names and the cosmetic `IOB` attribute set on the per-bit
registers are not modelled: no statement below observes them.
-/

set_option maxRecDepth 8192

namespace XilinxSpartan6

/-- A signal handle: allocation identity plus bit width.  Mirrors an nmigen
`Signal`; two handles are the same signal exactly when they have the same
allocation id. -/
structure Sig where
  id : Nat
  width : Nat
deriving DecidableEq

/-- Values bound to primitive ports and to the sides of combinational
assignments: a whole signal, a bitwise complement (`~x`), an integer constant
(`Const(v)` of a given width), or a single-bit slice (`x[bit]`). -/
inductive Expr where
  | sig (s : Sig)
  | not (e : Expr)
  | const (val : Nat) (width : Nat)
  | idx (e : Expr) (i : Nat)
deriving DecidableEq

/-- A primitive parameter value: integer (`p_INIT=0b01`) or string
(`p_DDR_ALIGNMENT="C0"`). -/
inductive PVal where
  | n (v : Nat)
  | s (v : String)
deriving DecidableEq

/-- One emitted primitive instance: kind, parameter bindings, port bindings.
Port keys keep the nmigen `i_`/`o_`/`io_`/`p_` keyword spelling of the
source. -/
structure Inst where
  kind : String
  params : List (String × PVal)
  ports : List (String × Expr)
deriving DecidableEq

/-- The elaboration state: the fresh-signal supply and the module under
construction (its emitted instances and combinational assignments, in emission
order). -/
structure ElabSt where
  nextId : Nat
  insts : List Inst
  assigns : List (Expr × Expr)
deriving DecidableEq

/-- Allocate a fresh signal of width `w` (a `Signal(w)` call). -/
def newSig (st : ElabSt) (w : Nat) : Sig × ElabSt :=
  (⟨st.nextId, w⟩, { st with nextId := st.nextId + 1 })

/-- Append one primitive instance (`m.submodules += Instance(...)`). -/
def emit (st : ElabSt) (inst : Inst) : ElabSt :=
  { st with insts := st.insts ++ [inst] }

/-- Append one combinational assignment (`m.d.comb += lhs.eq(rhs)`). -/
def assign (st : ElabSt) (lhs rhs : Expr) : ElabSt :=
  { st with assigns := st.assigns ++ [(lhs, rhs)] }

/-- Pin direction, the four values of `pin.dir` in the source. -/
inductive Dir where
  | i
  | o
  | oe
  | io
deriving DecidableEq

/-- The source test `"i" in pin.dir` (substring test on the direction
string). -/
def Dir.hasI : Dir → Bool
  | .i => true
  | .io => true
  | _ => false

/-- The source test `"o" in pin.dir`. -/
def Dir.hasO : Dir → Bool
  | .o => true
  | .oe => true
  | .io => true
  | _ => false

/-- The source test `pin.dir in ("oe", "io")`. -/
def Dir.hasT : Dir → Bool
  | .oe => true
  | .io => true
  | _ => false

/-- The pin descriptor.  All component signal handles are present in the
record; the source's contract is that only the fields implied by
`dir` × `xdr` are ever read. -/
structure Pin where
  dir : Dir
  width : Nat
  xdr : Nat
  i : Sig
  i0 : Sig
  i1 : Sig
  o : Sig
  o0 : Sig
  o1 : Sig
  oe : Sig
  i_clk : Sig
  o_clk : Sig
deriving DecidableEq

/-- Caller-side sanity of a pin with respect to a fresh-signal supply `n`:
every signal handle stored in the descriptor was allocated before `n`.  This
is the (implicit) source invariant that descriptor signals predate the
elaboration call. -/
def Pin.wf (pin : Pin) (n : Nat) : Prop :=
  pin.i.id < n ∧ pin.i0.id < n ∧ pin.i1.id < n ∧ pin.o.id < n ∧
  pin.o0.id < n ∧ pin.o1.id < n ∧ pin.oe.id < n ∧ pin.i_clk.id < n ∧
  pin.o_clk.id < n

instance (pin : Pin) (n : Nat) : Decidable (pin.wf n) := by
  unfold Pin.wf; infer_instance

/-- The `FDCE` instance emitted by `get_dff` for bit `b`: clock `clk`, clock
enable tied to 1, asynchronous clear tied to 0, data input `d[b]`, output the
fresh per-bit signal with id `qid`. -/
def fdceInst (clk : Sig) (d : Expr) (b : Nat) (qid : Nat) : Inst :=
  ⟨"FDCE", [],
   [("i_C", .sig clk), ("i_CE", .const 1 1), ("i_CLR", .const 0 1),
    ("i_D", .idx d b), ("o_Q", .sig ⟨qid, 1⟩)]⟩

/-- One loop iteration of `get_dff`: allocate the per-bit output signal,
instantiate the `FDCE`, connect `q[bit]` to it combinationally. -/
def dffStep (clk : Sig) (d : Expr) (q : Sig) (st : ElabSt) (bit : Nat) : ElabSt :=
  let p := newSig st 1
  assign (emit p.2 (fdceInst clk d bit p.1.id)) (.idx (.sig q) bit) (.sig p.1)

/-- `get_dff(clk, d, q)`: one packed-IOB flip-flop per bit of `q`. -/
def get_dff (clk : Sig) (d : Expr) (q : Sig) (st : ElabSt) : ElabSt :=
  (List.range q.width).foldl (dffStep clk d q) st

/-- The `IDDR2` instance emitted by `get_iddr` for bit `b`: complementary
clocks `clk` and `~clk`, C0 alignment, asynchronous reset style, zero initial
values, data from `d[b]`, phase outputs to `q0[b]` and `q1[b]`. -/
def iddrInst (clk : Sig) (d q0 q1 : Sig) (b : Nat) : Inst :=
  ⟨"IDDR2",
   [("p_DDR_ALIGNMENT", .s "C0"), ("p_SRTYPE", .s "ASYNC"),
    ("p_INIT_Q0", .n 0), ("p_INIT_Q1", .n 0)],
   [("i_C0", .sig clk), ("i_C1", .not (.sig clk)), ("i_CE", .const 1 1),
    ("i_S", .const 0 1), ("i_R", .const 0 1), ("i_D", .idx (.sig d) b),
    ("o_Q0", .idx (.sig q0) b), ("o_Q1", .idx (.sig q1) b)]⟩

/-- `get_iddr(clk, d, q0, q1)`: one DDR input deserializer per bit. -/
def get_iddr (clk d q0 q1 : Sig) (st : ElabSt) : ElabSt :=
  (List.range q0.width).foldl (fun st b => emit st (iddrInst clk d q0 q1 b)) st

/-- The `ODDR2` instance emitted by `get_oddr` for bit `b`. -/
def oddrInst (clk : Sig) (d0 d1 q : Sig) (b : Nat) : Inst :=
  ⟨"ODDR2",
   [("p_DDR_ALIGNMENT", .s "C0"), ("p_SRTYPE", .s "ASYNC"), ("p_INIT", .n 0)],
   [("i_C0", .sig clk), ("i_C1", .not (.sig clk)), ("i_CE", .const 1 1),
    ("i_S", .const 0 1), ("i_R", .const 0 1),
    ("i_D0", .idx (.sig d0) b), ("i_D1", .idx (.sig d1) b),
    ("o_Q", .idx (.sig q) b)]⟩

/-- `get_oddr(clk, d0, d1, q)`: one DDR output serializer per bit. -/
def get_oddr (clk d0 d1 q : Sig) (st : ElabSt) : ElabSt :=
  (List.range q.width).foldl (fun st b => emit st (oddrInst clk d0 d1 q b)) st

/-- The truth-table constant chosen by the inversion injectors:
`0b01 if invert else 0b10`. -/
def lutInit (invert : Bool) : Nat :=
  if invert then 1 else 2

/-- The single-input lookup primitive with truth table `init`, input `i0`,
output `o`. -/
def lutInst (init : Nat) (i0 o : Expr) : Inst :=
  ⟨"LUT1", [("p_INIT", .n init)], [("i_I0", i0), ("o_O", o)]⟩

/-- `get_ixor(y, invert)`: with no flag return `y` untouched; otherwise
allocate a same-width signal `a` and drive each `y[bit]` from `a[bit]` through
one `LUT1`, returning `a`. -/
def get_ixor (y : Sig) (invert : Option Bool) (st : ElabSt) : Sig × ElabSt :=
  match invert with
  | none => (y, st)
  | some inv =>
    let p := newSig st y.width
    (p.1, (List.range y.width).foldl
      (fun st b =>
        emit st (lutInst (lutInit inv) (.idx (.sig p.1) b) (.idx (.sig y) b)))
      p.2)

/-- `get_oxor(a, invert)`: with no flag return `a` untouched; otherwise
allocate a same-width signal `y` and drive each `y[bit]` from `a[bit]` through
one `LUT1`, returning `y`. -/
def get_oxor (a : Sig) (invert : Option Bool) (st : ElabSt) : Sig × ElabSt :=
  match invert with
  | none => (a, st)
  | some inv =>
    let p := newSig st a.width
    (p.1, (List.range a.width).foldl
      (fun st b =>
        emit st (lutInst (lutInit inv) (.idx (.sig a) b) (.idx (.sig p.1) b)))
      p.2)

/-- `_get_xdr_buffer(m, pin, i_invert, o_invert)`.

The source computes the inverted views of the logical pin signals first
(guarded by the same `pin.xdr < 2` / `pin.xdr == 2` tests used by the mode
dispatch), then allocates the fabric-side `i`/`o`/`t` signals, then branches
on the mode.  Here the branch on the mode is taken first and each branch
repeats the view computation and allocations it enables, which is the same by
case analysis on `pin.xdr`.  In the mode-0 branch, the freshly allocated
`i`/`o`/`t` signals are overwritten by the view signals / the `~pin.oe`
expression exactly as in the source (the allocations still advance the signal
supply).  A mode outside {0, 1, 2} reaches `assert False`; the failed
assertion aborts elaboration, modelled as `none` (no state escapes).

Placeholder values such as `(pin.i, st)` in the non-enabled branches mirror
the source, where the corresponding local is left unbound and is never read. -/
def _get_xdr_buffer (pin : Pin) (i_invert o_invert : Option Bool)
    (st0 : ElabSt) :
    Option ((Option Expr × Option Expr × Option Expr) × ElabSt) :=
  if pin.xdr = 0 then
    let a := if pin.dir.hasI then get_ixor pin.i i_invert st0 else (pin.i, st0)
    let b := if pin.dir.hasO then get_oxor pin.o o_invert a.2 else (pin.o, a.2)
    let c := if pin.dir.hasI then newSig b.2 pin.width else (pin.i, b.2)
    let d := if pin.dir.hasO then newSig c.2 pin.width else (pin.o, c.2)
    let e := if pin.dir.hasT then newSig d.2 1 else (pin.oe, d.2)
    some ((if pin.dir.hasI then some (.sig a.1) else none,
           if pin.dir.hasO then some (.sig b.1) else none,
           if pin.dir.hasT then some (.not (.sig pin.oe)) else none), e.2)
  else if pin.xdr = 1 then
    let a := if pin.dir.hasI then get_ixor pin.i i_invert st0 else (pin.i, st0)
    let b := if pin.dir.hasO then get_oxor pin.o o_invert a.2 else (pin.o, a.2)
    let c := if pin.dir.hasI then newSig b.2 pin.width else (pin.i, b.2)
    let d := if pin.dir.hasO then newSig c.2 pin.width else (pin.o, c.2)
    let e := if pin.dir.hasT then newSig d.2 1 else (pin.oe, d.2)
    let st := if pin.dir.hasI then get_dff pin.i_clk (.sig c.1) a.1 e.2 else e.2
    let st := if pin.dir.hasO then get_dff pin.o_clk (.sig b.1) d.1 st else st
    let st := if pin.dir.hasT then
        get_dff pin.o_clk (.not (.sig pin.oe)) e.1 st
      else st
    some ((if pin.dir.hasI then some (.sig c.1) else none,
           if pin.dir.hasO then some (.sig d.1) else none,
           if pin.dir.hasT then some (.sig e.1) else none), st)
  else if pin.xdr = 2 then
    let a0 := if pin.dir.hasI then get_ixor pin.i0 i_invert st0 else (pin.i0, st0)
    let a1 := if pin.dir.hasI then get_ixor pin.i1 i_invert a0.2 else (pin.i1, a0.2)
    let b0 := if pin.dir.hasO then get_oxor pin.o0 o_invert a1.2 else (pin.o0, a1.2)
    let b1 := if pin.dir.hasO then get_oxor pin.o1 o_invert b0.2 else (pin.o1, b0.2)
    let c := if pin.dir.hasI then newSig b1.2 pin.width else (pin.i, b1.2)
    let d := if pin.dir.hasO then newSig c.2 pin.width else (pin.o, c.2)
    let e := if pin.dir.hasT then newSig d.2 1 else (pin.oe, d.2)
    let st := if pin.dir.hasI then
        -- Re-register first input before it enters fabric.  This allows both
        -- inputs to enter fabric on the same clock edge, and adds one cycle
        -- of latency (comment carried over from the source).
        let ff := newSig e.2 a0.1.width
        get_iddr pin.i_clk c.1 ff.1 a1.1
          (get_dff pin.i_clk (.sig ff.1) a0.1 ff.2)
      else e.2
    let st := if pin.dir.hasO then get_oddr pin.o_clk b0.1 b1.1 d.1 st else st
    let st := if pin.dir.hasT then
        get_dff pin.o_clk (.not (.sig pin.oe)) e.1 st
      else st
    some ((if pin.dir.hasI then some (.sig c.1) else none,
           if pin.dir.hasO then some (.sig d.1) else none,
           if pin.dir.hasT then some (.sig e.1) else none), st)
  else
    none

/-- Errors surfaced by the topology entry points: a rejected configuration
from the feature check, the failed assertion propagated out of the buffer
assembler, or the type error the source would raise on reading an absent
field of the returned triple. -/
inductive ElabErr where
  | unsupported (feature : String)
  | assertFail
  | badPin
deriving DecidableEq

/-- Modelled from the spec: `_check_feature` is defined in the platform base
class, which is not among the sources under study; only its call sites are.
Per the spec it validates that the requested data-rate mode is one of the
valid modes for the topology and that the requested attributes are
acceptable, failing as a configuration error reported to the caller before
any elaboration state exists.  Every call site here passes
`valid_xdrs=(0, 1, 2)` and `valid_attrs=True`, so the attribute check always
passes and is not represented. -/
def _check_feature (feature : String) (pin : Pin) (validXdrs : List Nat) :
    Except ElabErr Unit :=
  if pin.xdr ∈ validXdrs then .ok () else .error (.unsupported feature)

/-- `get_input`: single-ended input entry point.  Checks the feature, runs the
XDR assembler with `i_invert=True if invert else None`, then wires one `IBUF`
per port bit from `port[bit]` into `i[bit]`. -/
def get_input (pin : Pin) (port : Sig) (invert : Bool) (n : Nat) :
    Except ElabErr ElabSt :=
  match _check_feature "single-ended input" pin [0, 1, 2] with
  | .error err => .error err
  | .ok _ =>
    match _get_xdr_buffer pin (if invert then some true else none) none
        ⟨n, [], []⟩ with
    | none => .error .assertFail
    | some ((some iE, _, _), m) =>
      .ok ((List.range port.width).foldl
        (fun m b =>
          emit m ⟨"IBUF", [],
                  [("i_I", .idx (.sig port) b), ("o_O", .idx iE b)]⟩) m)
    | some _ => .error .badPin

/-- `get_output`: single-ended output entry point: one `OBUF` per port bit. -/
def get_output (pin : Pin) (port : Sig) (invert : Bool) (n : Nat) :
    Except ElabErr ElabSt :=
  match _check_feature "single-ended output" pin [0, 1, 2] with
  | .error err => .error err
  | .ok _ =>
    match _get_xdr_buffer pin none (if invert then some true else none)
        ⟨n, [], []⟩ with
    | none => .error .assertFail
    | some ((_, some oE, _), m) =>
      .ok ((List.range port.width).foldl
        (fun m b =>
          emit m ⟨"OBUF", [],
                  [("i_I", .idx oE b), ("o_O", .idx (.sig port) b)]⟩) m)
    | some _ => .error .badPin

/-- `get_tristate`: single-ended tristate entry point: one `OBUFT` per port
bit, tristate control bound whole. -/
def get_tristate (pin : Pin) (port : Sig) (invert : Bool) (n : Nat) :
    Except ElabErr ElabSt :=
  match _check_feature "single-ended tristate" pin [0, 1, 2] with
  | .error err => .error err
  | .ok _ =>
    match _get_xdr_buffer pin none (if invert then some true else none)
        ⟨n, [], []⟩ with
    | none => .error .assertFail
    | some ((_, some oE, some tE), m) =>
      .ok ((List.range port.width).foldl
        (fun m b =>
          emit m ⟨"OBUFT", [],
                  [("i_T", tE), ("i_I", .idx oE b),
                   ("o_O", .idx (.sig port) b)]⟩) m)
    | some _ => .error .badPin

/-- `get_input_output`: single-ended bidirectional entry point: one `IOBUF`
per port bit. -/
def get_input_output (pin : Pin) (port : Sig) (invert : Bool) (n : Nat) :
    Except ElabErr ElabSt :=
  match _check_feature "single-ended input/output" pin [0, 1, 2] with
  | .error err => .error err
  | .ok _ =>
    match _get_xdr_buffer pin (if invert then some true else none)
        (if invert then some true else none) ⟨n, [], []⟩ with
    | none => .error .assertFail
    | some ((some iE, some oE, some tE), m) =>
      .ok ((List.range port.width).foldl
        (fun m b =>
          emit m ⟨"IOBUF", [],
                  [("i_T", tE), ("i_I", .idx oE b), ("o_O", .idx iE b),
                   ("io_IO", .idx (.sig port) b)]⟩) m)
    | some _ => .error .badPin

/-- `get_diff_input`: differential input entry point: one `IBUFDS` per bit of
the true-polarity port. -/
def get_diff_input (pin : Pin) (p_port n_port : Sig) (invert : Bool)
    (n : Nat) : Except ElabErr ElabSt :=
  match _check_feature "differential input" pin [0, 1, 2] with
  | .error err => .error err
  | .ok _ =>
    match _get_xdr_buffer pin (if invert then some true else none) none
        ⟨n, [], []⟩ with
    | none => .error .assertFail
    | some ((some iE, _, _), m) =>
      .ok ((List.range p_port.width).foldl
        (fun m b =>
          emit m ⟨"IBUFDS", [],
                  [("i_I", .idx (.sig p_port) b), ("i_IB", .idx (.sig n_port) b),
                   ("o_O", .idx iE b)]⟩) m)
    | some _ => .error .badPin

/-- `get_diff_output`: differential output entry point: one `OBUFDS` per
bit. -/
def get_diff_output (pin : Pin) (p_port n_port : Sig) (invert : Bool)
    (n : Nat) : Except ElabErr ElabSt :=
  match _check_feature "differential output" pin [0, 1, 2] with
  | .error err => .error err
  | .ok _ =>
    match _get_xdr_buffer pin none (if invert then some true else none)
        ⟨n, [], []⟩ with
    | none => .error .assertFail
    | some ((_, some oE, _), m) =>
      .ok ((List.range p_port.width).foldl
        (fun m b =>
          emit m ⟨"OBUFDS", [],
                  [("i_I", .idx oE b), ("o_O", .idx (.sig p_port) b),
                   ("o_OB", .idx (.sig n_port) b)]⟩) m)
    | some _ => .error .badPin

/-- `get_diff_tristate`: differential tristate entry point: one `OBUFTDS` per
bit. -/
def get_diff_tristate (pin : Pin) (p_port n_port : Sig) (invert : Bool)
    (n : Nat) : Except ElabErr ElabSt :=
  match _check_feature "differential tristate" pin [0, 1, 2] with
  | .error err => .error err
  | .ok _ =>
    match _get_xdr_buffer pin none (if invert then some true else none)
        ⟨n, [], []⟩ with
    | none => .error .assertFail
    | some ((_, some oE, some tE), m) =>
      .ok ((List.range p_port.width).foldl
        (fun m b =>
          emit m ⟨"OBUFTDS", [],
                  [("i_T", tE), ("i_I", .idx oE b),
                   ("o_O", .idx (.sig p_port) b),
                   ("o_OB", .idx (.sig n_port) b)]⟩) m)
    | some _ => .error .badPin

/-- `get_diff_input_output`: differential bidirectional entry point: one
`IOBUFDS` per bit. -/
def get_diff_input_output (pin : Pin) (p_port n_port : Sig) (invert : Bool)
    (n : Nat) : Except ElabErr ElabSt :=
  match _check_feature "differential input/output" pin [0, 1, 2] with
  | .error err => .error err
  | .ok _ =>
    match _get_xdr_buffer pin (if invert then some true else none)
        (if invert then some true else none) ⟨n, [], []⟩ with
    | none => .error .assertFail
    | some ((some iE, some oE, some tE), m) =>
      .ok ((List.range p_port.width).foldl
        (fun m b =>
          emit m ⟨"IOBUFDS", [],
                  [("i_T", tE), ("i_I", .idx oE b), ("o_O", .idx iE b),
                   ("io_IO", .idx (.sig p_port) b),
                   ("io_IOB", .idx (.sig n_port) b)]⟩) m)
    | some _ => .error .badPin

/-- The public buffer-construction entry points of the platform class, one
constructor per `get_*` method of the topology dispatch layer. -/
inductive EntryPoint where
  | input
  | output
  | tristate
  | input_output
  | diff_input
  | diff_output
  | diff_tristate
  | diff_input_output
deriving DecidableEq

/-- Dispatch an entry point to its method.  Single-ended entry points take one
pad port and ignore `np`; differential ones take the true/complement pair. -/
def applyEntry (ep : EntryPoint) (pin : Pin) (p np : Sig) (invert : Bool)
    (n : Nat) : Except ElabErr ElabSt :=
  match ep with
  | .input => get_input pin p invert n
  | .output => get_output pin p invert n
  | .tristate => get_tristate pin p invert n
  | .input_output => get_input_output pin p invert n
  | .diff_input => get_diff_input pin p np invert n
  | .diff_output => get_diff_output pin p np invert n
  | .diff_tristate => get_diff_tristate pin p np invert n
  | .diff_input_output => get_diff_input_output pin p np invert n

/-- All public buffer-construction entry points of the dispatch layer. -/
def entryPoints : List EntryPoint :=
  [.input, .output, .tristate, .input_output,
   .diff_input, .diff_output, .diff_tristate, .diff_input_output]

/-- Whether an entry point serves a differential topology (takes a
true/complement pad-port pair and instantiates a `...DS` pad primitive). -/
def EntryPoint.isDifferential : EntryPoint → Bool
  | .diff_input => true
  | .diff_output => true
  | .diff_tristate => true
  | .diff_input_output => true
  | _ => false

/-- The feature name each entry point passes to `_check_feature`. -/
def EntryPoint.feature : EntryPoint → String
  | .input => "single-ended input"
  | .output => "single-ended output"
  | .tristate => "single-ended tristate"
  | .input_output => "single-ended input/output"
  | .diff_input => "differential input"
  | .diff_output => "differential output"
  | .diff_tristate => "differential tristate"
  | .diff_input_output => "differential input/output"

/-- Value semantics of the single-input lookup primitive: the output is the
bit of the truth-table constant selected by the input
(`O = INIT[I0]`). -/
def lut1 (init : Nat) (b : Bool) : Bool :=
  init.testBit (if b then 1 else 0)

/-- Value computed, bit by bit, by the `LUT1` network `get_ixor` emits: with
no flag the value passes through unchanged; with a flag each bit goes through
a `LUT1` whose truth table is `lutInit inv`. -/
def ixorFun (invert : Option Bool) (v : List Bool) : List Bool :=
  match invert with
  | none => v
  | some inv => v.map (lut1 (lutInit inv))

/-- Value computed, bit by bit, by the `LUT1` network `get_oxor` emits. -/
def oxorFun (invert : Option Bool) (v : List Bool) : List Bool :=
  match invert with
  | none => v
  | some inv => v.map (lut1 (lutInit inv))

/-- A concrete one-bit pin descriptor used by the concrete evaluations below:
component signals carry allocation ids 0 through 8, so a fresh-signal supply
starting at 9 satisfies `Pin.wf`. -/
def mkPin (dir : Dir) (xdr : Nat) : Pin :=
  ⟨dir, 1, xdr, ⟨0, 1⟩, ⟨1, 1⟩, ⟨2, 1⟩, ⟨3, 1⟩, ⟨4, 1⟩, ⟨5, 1⟩,
   ⟨6, 1⟩, ⟨7, 1⟩, ⟨8, 1⟩⟩

/-! ### Closed forms of the emission helpers

Each loop of the source appends a fixed family of instances (and assignments)
and advances the signal supply by a fixed amount; the lemmas below restate the
folds as explicit list appends. -/

/-- The instances emitted by `get_dff` over a width-`w` destination, fresh
per-bit outputs starting at id `n`. -/
def dffInsts (clk : Sig) (d : Expr) (w n : Nat) : List Inst :=
  (List.range w).map fun b => fdceInst clk d b (n + b)

/-- The combinational assignments emitted by `get_dff` into `q`, fresh per-bit
outputs starting at id `n`. -/
def dffAssigns (q : Sig) (n : Nat) : List (Expr × Expr) :=
  (List.range q.width).map fun b => (Expr.idx (.sig q) b, Expr.sig ⟨n + b, 1⟩)

/-- The instances emitted by `get_iddr`. -/
def iddrInsts (clk : Sig) (d q0 q1 : Sig) : List Inst :=
  (List.range q0.width).map (iddrInst clk d q0 q1)

/-- The instances emitted by `get_oddr`. -/
def oddrInsts (clk : Sig) (d0 d1 q : Sig) : List Inst :=
  (List.range q.width).map (oddrInst clk d0 d1 q)

/-- How many signals an inversion injector allocates: none without a flag,
one with a flag. -/
def invSize : Option Bool → Nat
  | none => 0
  | some _ => 1

/-- The signal returned by `get_ixor` when entered with fresh-signal supply
`n`: the argument itself without a flag, the fresh same-width signal with a
flag. -/
def ixorOut (y : Sig) (invert : Option Bool) (n : Nat) : Sig :=
  match invert with
  | none => y
  | some _ => ⟨n, y.width⟩

/-- The signal returned by `get_oxor` when entered with fresh-signal supply
`n`. -/
def oxorOut (a : Sig) (invert : Option Bool) (n : Nat) : Sig :=
  match invert with
  | none => a
  | some _ => ⟨n, a.width⟩

/-- The `LUT1` instances emitted by `get_ixor`: inputs on the fresh signal,
outputs on the argument. -/
def ixorLuts (y : Sig) (invert : Option Bool) (n : Nat) : List Inst :=
  match invert with
  | none => []
  | some inv => (List.range y.width).map fun b =>
      lutInst (lutInit inv) (.idx (.sig ⟨n, y.width⟩) b) (.idx (.sig y) b)

/-- The `LUT1` instances emitted by `get_oxor`: inputs on the argument,
outputs on the fresh signal. -/
def oxorLuts (a : Sig) (invert : Option Bool) (n : Nat) : List Inst :=
  match invert with
  | none => []
  | some inv => (List.range a.width).map fun b =>
      lutInst (lutInit inv) (.idx (.sig a) b) (.idx (.sig ⟨n, a.width⟩) b)

theorem newSig_eq (n : Nat) (I : List Inst) (A : List (Expr × Expr))
    (w : Nat) : newSig ⟨n, I, A⟩ w = (⟨n, w⟩, ⟨n + 1, I, A⟩) := rfl

theorem emit_foldl (f : Nat → Inst) :
    ∀ (w n : Nat) (I : List Inst) (A : List (Expr × Expr)),
      (List.range w).foldl (fun st b => emit st (f b)) ⟨n, I, A⟩ =
        ⟨n, I ++ (List.range w).map f, A⟩ := by
  intro w
  induction w with
  | zero => intro n I A; simp
  | succ w ih =>
    intro n I A
    rw [List.range_succ, List.foldl_append, List.map_append, ih]
    simp [emit, List.append_assoc]

theorem dff_foldl (clk : Sig) (d : Expr) (q : Sig) :
    ∀ (w n : Nat) (I : List Inst) (A : List (Expr × Expr)),
      (List.range w).foldl (dffStep clk d q) ⟨n, I, A⟩ =
        ⟨n + w,
         I ++ (List.range w).map (fun b => fdceInst clk d b (n + b)),
         A ++ (List.range w).map
           (fun b => (Expr.idx (.sig q) b, Expr.sig ⟨n + b, 1⟩))⟩ := by
  intro w
  induction w with
  | zero => intro n I A; simp
  | succ w ih =>
    intro n I A
    rw [List.range_succ, List.foldl_append, List.map_append, List.map_append,
      ih]
    simp [dffStep, newSig, emit, assign, List.append_assoc, Nat.add_assoc]

theorem get_dff_eq (clk : Sig) (d : Expr) (q : Sig) (n : Nat) (I : List Inst)
    (A : List (Expr × Expr)) :
    get_dff clk d q ⟨n, I, A⟩ =
      ⟨n + q.width, I ++ dffInsts clk d q.width n, A ++ dffAssigns q n⟩ :=
  dff_foldl clk d q q.width n I A

theorem get_iddr_eq (clk d q0 q1 : Sig) (n : Nat) (I : List Inst)
    (A : List (Expr × Expr)) :
    get_iddr clk d q0 q1 ⟨n, I, A⟩ = ⟨n, I ++ iddrInsts clk d q0 q1, A⟩ :=
  emit_foldl (iddrInst clk d q0 q1) q0.width n I A

theorem get_oddr_eq (clk d0 d1 q : Sig) (n : Nat) (I : List Inst)
    (A : List (Expr × Expr)) :
    get_oddr clk d0 d1 q ⟨n, I, A⟩ = ⟨n, I ++ oddrInsts clk d0 d1 q, A⟩ :=
  emit_foldl (oddrInst clk d0 d1 q) q.width n I A

theorem get_ixor_eq (y : Sig) (invert : Option Bool) (n : Nat)
    (I : List Inst) (A : List (Expr × Expr)) :
    get_ixor y invert ⟨n, I, A⟩ =
      (ixorOut y invert n,
       ⟨n + invSize invert, I ++ ixorLuts y invert n, A⟩) := by
  cases invert with
  | none => simp [get_ixor, ixorOut, invSize, ixorLuts]
  | some inv =>
    simp only [get_ixor, ixorOut, invSize, ixorLuts, newSig]
    rw [emit_foldl]

theorem get_oxor_eq (a : Sig) (invert : Option Bool) (n : Nat)
    (I : List Inst) (A : List (Expr × Expr)) :
    get_oxor a invert ⟨n, I, A⟩ =
      (oxorOut a invert n,
       ⟨n + invSize invert, I ++ oxorLuts a invert n, A⟩) := by
  cases invert with
  | none => simp [get_oxor, oxorOut, invSize, oxorLuts]
  | some inv =>
    simp only [get_oxor, oxorOut, invSize, oxorLuts, newSig]
    rw [emit_foldl]

theorem ixorOut_width (y : Sig) (invert : Option Bool) (n : Nat) :
    (ixorOut y invert n).width = y.width := by
  cases invert <;> rfl

theorem oxorOut_width (a : Sig) (invert : Option Bool) (n : Nat) :
    (oxorOut a invert n).width = a.width := by
  cases invert <;> rfl

/-! ### Membership in the emitted families -/

theorem mem_dffInsts {inst : Inst} {clk : Sig} {d : Expr} {w n : Nat}
    (h : inst ∈ dffInsts clk d w n) :
    ∃ b, b < w ∧ inst = fdceInst clk d b (n + b) := by
  obtain ⟨b, hb, rfl⟩ := List.mem_map.1 h
  exact ⟨b, List.mem_range.1 hb, rfl⟩

theorem fdce_mem_dffInsts (clk : Sig) (d : Expr) {w n b : Nat} (hb : b < w) :
    fdceInst clk d b (n + b) ∈ dffInsts clk d w n :=
  List.mem_map.2 ⟨b, List.mem_range.2 hb, rfl⟩

theorem dffInsts_kind {inst : Inst} {clk : Sig} {d : Expr} {w n : Nat}
    (h : inst ∈ dffInsts clk d w n) : inst.kind = "FDCE" := by
  obtain ⟨b, _, rfl⟩ := mem_dffInsts h; rfl

theorem mem_dffAssigns {pr : Expr × Expr} {q : Sig} {n : Nat}
    (h : pr ∈ dffAssigns q n) :
    ∃ b, b < q.width ∧ pr = (Expr.idx (.sig q) b, Expr.sig ⟨n + b, 1⟩) := by
  obtain ⟨b, hb, rfl⟩ := List.mem_map.1 h
  exact ⟨b, List.mem_range.1 hb, rfl⟩

theorem dffAssign_mem (q : Sig) (n : Nat) {b : Nat} (hb : b < q.width) :
    (Expr.idx (.sig q) b, Expr.sig ⟨n + b, 1⟩) ∈ dffAssigns q n :=
  List.mem_map.2 ⟨b, List.mem_range.2 hb, rfl⟩

theorem mem_iddrInsts {inst : Inst} {clk d q0 q1 : Sig}
    (h : inst ∈ iddrInsts clk d q0 q1) :
    ∃ b, b < q0.width ∧ inst = iddrInst clk d q0 q1 b := by
  obtain ⟨b, hb, rfl⟩ := List.mem_map.1 h
  exact ⟨b, List.mem_range.1 hb, rfl⟩

theorem iddr_mem_iddrInsts (clk d q0 q1 : Sig) {b : Nat} (hb : b < q0.width) :
    iddrInst clk d q0 q1 b ∈ iddrInsts clk d q0 q1 :=
  List.mem_map.2 ⟨b, List.mem_range.2 hb, rfl⟩

theorem iddrInsts_kind {inst : Inst} {clk d q0 q1 : Sig}
    (h : inst ∈ iddrInsts clk d q0 q1) : inst.kind = "IDDR2" := by
  obtain ⟨b, _, rfl⟩ := mem_iddrInsts h; rfl

theorem mem_oddrInsts {inst : Inst} {clk d0 d1 q : Sig}
    (h : inst ∈ oddrInsts clk d0 d1 q) :
    ∃ b, b < q.width ∧ inst = oddrInst clk d0 d1 q b := by
  obtain ⟨b, hb, rfl⟩ := List.mem_map.1 h
  exact ⟨b, List.mem_range.1 hb, rfl⟩

theorem oddrInsts_kind {inst : Inst} {clk d0 d1 q : Sig}
    (h : inst ∈ oddrInsts clk d0 d1 q) : inst.kind = "ODDR2" := by
  obtain ⟨b, _, rfl⟩ := mem_oddrInsts h; rfl

theorem mem_ixorLuts {inst : Inst} {y : Sig} {invert : Option Bool} {n : Nat}
    (h : inst ∈ ixorLuts y invert n) :
    ∃ inv b, invert = some inv ∧ b < y.width ∧
      inst = lutInst (lutInit inv) (.idx (.sig ⟨n, y.width⟩) b)
        (.idx (.sig y) b) := by
  cases invert with
  | none => simp [ixorLuts] at h
  | some inv =>
    obtain ⟨b, hb, rfl⟩ := List.mem_map.1 h
    exact ⟨inv, b, rfl, List.mem_range.1 hb, rfl⟩

theorem mem_oxorLuts {inst : Inst} {a : Sig} {invert : Option Bool} {n : Nat}
    (h : inst ∈ oxorLuts a invert n) :
    ∃ inv b, invert = some inv ∧ b < a.width ∧
      inst = lutInst (lutInit inv) (.idx (.sig a) b)
        (.idx (.sig ⟨n, a.width⟩) b) := by
  cases invert with
  | none => simp [oxorLuts] at h
  | some inv =>
    obtain ⟨b, hb, rfl⟩ := List.mem_map.1 h
    exact ⟨inv, b, rfl, List.mem_range.1 hb, rfl⟩

/-! ### Closed forms of `_get_xdr_buffer`, one per direction × mode -/

section ClosedForms

variable (pi pi0 pi1 po po0 po1 poe pic poc : Sig) (w n : Nat)
variable (ii oi : Option Bool)

theorem xdr0_i_eq :
    _get_xdr_buffer ⟨.i, w, 0, pi, pi0, pi1, po, po0, po1, poe, pic, poc⟩
        ii oi ⟨n, [], []⟩ =
      some ((some (.sig (ixorOut pi ii n)), none, none),
            ⟨n + invSize ii + 1, ixorLuts pi ii n, []⟩) := by
  simp [_get_xdr_buffer, Dir.hasI, Dir.hasO, Dir.hasT, get_ixor_eq,
    get_oxor_eq, newSig_eq, Nat.add_assoc]

theorem xdr0_o_eq :
    _get_xdr_buffer ⟨.o, w, 0, pi, pi0, pi1, po, po0, po1, poe, pic, poc⟩
        ii oi ⟨n, [], []⟩ =
      some ((none, some (.sig (oxorOut po oi n)), none),
            ⟨n + invSize oi + 1, oxorLuts po oi n, []⟩) := by
  simp [_get_xdr_buffer, Dir.hasI, Dir.hasO, Dir.hasT, get_ixor_eq,
    get_oxor_eq, newSig_eq, Nat.add_assoc]

theorem xdr0_oe_eq :
    _get_xdr_buffer ⟨.oe, w, 0, pi, pi0, pi1, po, po0, po1, poe, pic, poc⟩
        ii oi ⟨n, [], []⟩ =
      some ((none, some (.sig (oxorOut po oi n)),
             some (.not (.sig poe))),
            ⟨n + invSize oi + 2, oxorLuts po oi n, []⟩) := by
  simp [_get_xdr_buffer, Dir.hasI, Dir.hasO, Dir.hasT, get_ixor_eq,
    get_oxor_eq, newSig_eq, Nat.add_assoc]

theorem xdr0_io_eq :
    _get_xdr_buffer ⟨.io, w, 0, pi, pi0, pi1, po, po0, po1, poe, pic, poc⟩
        ii oi ⟨n, [], []⟩ =
      some ((some (.sig (ixorOut pi ii n)),
             some (.sig (oxorOut po oi (n + invSize ii))),
             some (.not (.sig poe))),
            ⟨n + invSize ii + invSize oi + 3,
             ixorLuts pi ii n ++ oxorLuts po oi (n + invSize ii), []⟩) := by
  simp [_get_xdr_buffer, Dir.hasI, Dir.hasO, Dir.hasT, get_ixor_eq,
    get_oxor_eq, newSig_eq, Nat.add_assoc]

theorem xdr1_i_eq :
    _get_xdr_buffer ⟨.i, w, 1, pi, pi0, pi1, po, po0, po1, poe, pic, poc⟩
        ii oi ⟨n, [], []⟩ =
      some ((some (.sig ⟨n + invSize ii, w⟩), none, none),
            ⟨n + invSize ii + 1 + (ixorOut pi ii n).width,
             ixorLuts pi ii n ++
               dffInsts pic (.sig ⟨n + invSize ii, w⟩)
                 (ixorOut pi ii n).width (n + invSize ii + 1),
             dffAssigns (ixorOut pi ii n) (n + invSize ii + 1)⟩) := by
  simp [_get_xdr_buffer, Dir.hasI, Dir.hasO, Dir.hasT, get_ixor_eq,
    get_oxor_eq, get_dff_eq, newSig_eq, List.append_assoc, Nat.add_assoc]

theorem xdr1_o_eq :
    _get_xdr_buffer ⟨.o, w, 1, pi, pi0, pi1, po, po0, po1, poe, pic, poc⟩
        ii oi ⟨n, [], []⟩ =
      some ((none, some (.sig ⟨n + invSize oi, w⟩), none),
            ⟨n + invSize oi + 1 + w,
             oxorLuts po oi n ++
               dffInsts poc (.sig (oxorOut po oi n)) w (n + invSize oi + 1),
             dffAssigns ⟨n + invSize oi, w⟩ (n + invSize oi + 1)⟩) := by
  simp [_get_xdr_buffer, Dir.hasI, Dir.hasO, Dir.hasT, get_ixor_eq,
    get_oxor_eq, get_dff_eq, newSig_eq, List.append_assoc, Nat.add_assoc]

theorem xdr1_oe_eq :
    _get_xdr_buffer ⟨.oe, w, 1, pi, pi0, pi1, po, po0, po1, poe, pic, poc⟩
        ii oi ⟨n, [], []⟩ =
      some ((none, some (.sig ⟨n + invSize oi, w⟩),
             some (.sig ⟨n + invSize oi + 1, 1⟩)),
            ⟨n + invSize oi + 2 + w + 1,
             oxorLuts po oi n ++
               dffInsts poc (.sig (oxorOut po oi n)) w (n + invSize oi + 2) ++
               dffInsts poc (.not (.sig poe)) 1 (n + invSize oi + 2 + w),
             dffAssigns ⟨n + invSize oi, w⟩ (n + invSize oi + 2) ++
               dffAssigns ⟨n + invSize oi + 1, 1⟩
                 (n + invSize oi + 2 + w)⟩) := by
  simp [_get_xdr_buffer, Dir.hasI, Dir.hasO, Dir.hasT, get_ixor_eq,
    get_oxor_eq, get_dff_eq, newSig_eq, List.append_assoc, Nat.add_assoc]

theorem xdr1_io_eq :
    _get_xdr_buffer ⟨.io, w, 1, pi, pi0, pi1, po, po0, po1, poe, pic, poc⟩
        ii oi ⟨n, [], []⟩ =
      some ((some (.sig ⟨n + invSize ii + invSize oi, w⟩),
             some (.sig ⟨n + invSize ii + invSize oi + 1, w⟩),
             some (.sig ⟨n + invSize ii + invSize oi + 2, 1⟩)),
            ⟨n + invSize ii + invSize oi + 3 + (ixorOut pi ii n).width
               + w + 1,
             ixorLuts pi ii n ++ oxorLuts po oi (n + invSize ii) ++
               dffInsts pic (.sig ⟨n + invSize ii + invSize oi, w⟩)
                 (ixorOut pi ii n).width
                 (n + invSize ii + invSize oi + 3) ++
               dffInsts poc (.sig (oxorOut po oi (n + invSize ii))) w
                 (n + invSize ii + invSize oi + 3 +
                   (ixorOut pi ii n).width) ++
               dffInsts poc (.not (.sig poe)) 1
                 (n + invSize ii + invSize oi + 3 +
                   (ixorOut pi ii n).width + w),
             dffAssigns (ixorOut pi ii n)
                 (n + invSize ii + invSize oi + 3) ++
               dffAssigns ⟨n + invSize ii + invSize oi + 1, w⟩
                 (n + invSize ii + invSize oi + 3 +
                   (ixorOut pi ii n).width) ++
               dffAssigns ⟨n + invSize ii + invSize oi + 2, 1⟩
                 (n + invSize ii + invSize oi + 3 +
                   (ixorOut pi ii n).width + w)⟩) := by
  simp [_get_xdr_buffer, Dir.hasI, Dir.hasO, Dir.hasT, get_ixor_eq,
    get_oxor_eq, get_dff_eq, newSig_eq, List.append_assoc, Nat.add_assoc]

theorem xdr2_i_eq :
    _get_xdr_buffer ⟨.i, w, 2, pi, pi0, pi1, po, po0, po1, poe, pic, poc⟩
        ii oi ⟨n, [], []⟩ =
      some ((some (.sig ⟨n + invSize ii + invSize ii, w⟩), none, none),
            ⟨n + invSize ii + invSize ii + 2 + (ixorOut pi0 ii n).width,
             ixorLuts pi0 ii n ++ ixorLuts pi1 ii (n + invSize ii) ++
               dffInsts pic
                 (.sig ⟨n + invSize ii + invSize ii + 1,
                        (ixorOut pi0 ii n).width⟩)
                 (ixorOut pi0 ii n).width
                 (n + invSize ii + invSize ii + 2) ++
               iddrInsts pic ⟨n + invSize ii + invSize ii, w⟩
                 ⟨n + invSize ii + invSize ii + 1, (ixorOut pi0 ii n).width⟩
                 (ixorOut pi1 ii (n + invSize ii)),
             dffAssigns (ixorOut pi0 ii n)
               (n + invSize ii + invSize ii + 2)⟩) := by
  simp [_get_xdr_buffer, Dir.hasI, Dir.hasO, Dir.hasT, get_ixor_eq,
    get_oxor_eq, get_dff_eq, get_iddr_eq, get_oddr_eq, newSig_eq,
    List.append_assoc, Nat.add_assoc]

theorem xdr2_o_eq :
    _get_xdr_buffer ⟨.o, w, 2, pi, pi0, pi1, po, po0, po1, poe, pic, poc⟩
        ii oi ⟨n, [], []⟩ =
      some ((none, some (.sig ⟨n + invSize oi + invSize oi, w⟩), none),
            ⟨n + invSize oi + invSize oi + 1,
             oxorLuts po0 oi n ++ oxorLuts po1 oi (n + invSize oi) ++
               oddrInsts poc (oxorOut po0 oi n)
                 (oxorOut po1 oi (n + invSize oi))
                 ⟨n + invSize oi + invSize oi, w⟩,
             []⟩) := by
  simp [_get_xdr_buffer, Dir.hasI, Dir.hasO, Dir.hasT, get_ixor_eq,
    get_oxor_eq, get_dff_eq, get_iddr_eq, get_oddr_eq, newSig_eq,
    List.append_assoc, Nat.add_assoc]

theorem xdr2_oe_eq :
    _get_xdr_buffer ⟨.oe, w, 2, pi, pi0, pi1, po, po0, po1, poe, pic, poc⟩
        ii oi ⟨n, [], []⟩ =
      some ((none, some (.sig ⟨n + invSize oi + invSize oi, w⟩),
             some (.sig ⟨n + invSize oi + invSize oi + 1, 1⟩)),
            ⟨n + invSize oi + invSize oi + 2 + 1,
             oxorLuts po0 oi n ++ oxorLuts po1 oi (n + invSize oi) ++
               oddrInsts poc (oxorOut po0 oi n)
                 (oxorOut po1 oi (n + invSize oi))
                 ⟨n + invSize oi + invSize oi, w⟩ ++
               dffInsts poc (.not (.sig poe)) 1
                 (n + invSize oi + invSize oi + 2),
             dffAssigns ⟨n + invSize oi + invSize oi + 1, 1⟩
               (n + invSize oi + invSize oi + 2)⟩) := by
  simp [_get_xdr_buffer, Dir.hasI, Dir.hasO, Dir.hasT, get_ixor_eq,
    get_oxor_eq, get_dff_eq, get_iddr_eq, get_oddr_eq, newSig_eq,
    List.append_assoc, Nat.add_assoc]

theorem xdr2_io_eq :
    _get_xdr_buffer ⟨.io, w, 2, pi, pi0, pi1, po, po0, po1, poe, pic, poc⟩
        ii oi ⟨n, [], []⟩ =
      some ((some (.sig ⟨n + invSize ii + invSize ii + invSize oi
                          + invSize oi, w⟩),
             some (.sig ⟨n + invSize ii + invSize ii + invSize oi
                          + invSize oi + 1, w⟩),
             some (.sig ⟨n + invSize ii + invSize ii + invSize oi
                          + invSize oi + 2, 1⟩)),
            ⟨n + invSize ii + invSize ii + invSize oi + invSize oi + 4
               + (ixorOut pi0 ii n).width + 1,
             ixorLuts pi0 ii n ++ ixorLuts pi1 ii (n + invSize ii) ++
               oxorLuts po0 oi (n + invSize ii + invSize ii) ++
               oxorLuts po1 oi (n + invSize ii + invSize ii + invSize oi) ++
               dffInsts pic
                 (.sig ⟨n + invSize ii + invSize ii + invSize oi
                          + invSize oi + 3, (ixorOut pi0 ii n).width⟩)
                 (ixorOut pi0 ii n).width
                 (n + invSize ii + invSize ii + invSize oi
                   + invSize oi + 4) ++
               iddrInsts pic
                 ⟨n + invSize ii + invSize ii + invSize oi + invSize oi, w⟩
                 ⟨n + invSize ii + invSize ii + invSize oi + invSize oi + 3,
                  (ixorOut pi0 ii n).width⟩
                 (ixorOut pi1 ii (n + invSize ii)) ++
               oddrInsts poc
                 (oxorOut po0 oi (n + invSize ii + invSize ii))
                 (oxorOut po1 oi (n + invSize ii + invSize ii + invSize oi))
                 ⟨n + invSize ii + invSize ii + invSize oi
                    + invSize oi + 1, w⟩ ++
               dffInsts poc (.not (.sig poe)) 1
                 (n + invSize ii + invSize ii + invSize oi + invSize oi + 4
                   + (ixorOut pi0 ii n).width),
             dffAssigns (ixorOut pi0 ii n)
                 (n + invSize ii + invSize ii + invSize oi
                   + invSize oi + 4) ++
               dffAssigns ⟨n + invSize ii + invSize ii + invSize oi
                             + invSize oi + 2, 1⟩
                 (n + invSize ii + invSize ii + invSize oi + invSize oi + 4
                   + (ixorOut pi0 ii n).width)⟩) := by
  simp [_get_xdr_buffer, Dir.hasI, Dir.hasO, Dir.hasT, get_ixor_eq,
    get_oxor_eq, get_dff_eq, get_iddr_eq, get_oddr_eq, newSig_eq,
    List.append_assoc, Nat.add_assoc]

end ClosedForms

/-! ### Claim C2 -/

/-- Claim C2, counterexample.  For the concrete one-bit input pin in mode 1
with no inversion (so the logical input is `pin.i = ⟨0, 1⟩` itself), the
elaboration emits exactly one `FDCE`, whose data input is the returned
fabric-side signal `⟨9, 1⟩` — not the logical input — and whose registered
output drives the logical input bit through the sole combinational
assignment, whose target is `pin.i[0]`, not `i[0]`.  The claim asserts the
opposite orientation: a register with data input `pin.i[0]` does not exist
(the only instance's port list does not bind `i_D` to `pin.i[0]`), and no
assignment drives `i[0]`. -/
theorem c2_counterexample :
    _get_xdr_buffer (mkPin .i 1) none none ⟨9, [], []⟩ =
      some ((some (.sig ⟨9, 1⟩), none, none),
            ⟨11, [fdceInst ⟨7, 1⟩ (.sig ⟨9, 1⟩) 0 10],
             [(.idx (.sig ⟨0, 1⟩) 0, .sig ⟨10, 1⟩)]⟩) ∧
    (mkPin .i 1).i = ⟨0, 1⟩ ∧
    ("i_D", Expr.idx (.sig ⟨0, 1⟩) 0) ∉
      (fdceInst ⟨7, 1⟩ (.sig ⟨9, 1⟩) 0 10).ports ∧
    ((Expr.idx (.sig ⟨9, 1⟩) 0, Expr.sig ⟨10, 1⟩) : Expr × Expr) ∉
      ([(.idx (.sig ⟨0, 1⟩) 0, .sig ⟨10, 1⟩)] : List (Expr × Expr)) := by
  refine ⟨by decide, rfl, by decide, by decide⟩

/-- Claim C2, amended.  For every pin whose direction includes input and
whose data-rate mode is 1, the returned fabric-side signal `i` is routed
through the single-rate register synthesizer clocked by `i_clk` into the
(possibly inverted) logical input: for each bit, the emitted `FDCE` takes
`i[b]` as its data input and its registered output drives the logical input
bit `pin_i[b]` (the orientation is the reverse of the one claimed). -/
theorem c2_sdr_input_path :
    ∀ (pin : Pin) (ii oi : Option Bool) (n : Nat),
      pin.xdr = 1 → pin.dir.hasI = true →
      ∃ (iS : Sig) (ot : Option Expr × Option Expr) (st : ElabSt),
        _get_xdr_buffer pin ii oi ⟨n, [], []⟩ =
          some ((some (.sig iS), ot), st) ∧
        iS.width = pin.width ∧ n ≤ iS.id ∧
        ∀ b, b < pin.i.width →
          ∃ qid,
            fdceInst pin.i_clk (.sig iS) b qid ∈ st.insts ∧
            (Expr.idx (.sig (ixorOut pin.i ii n)) b, Expr.sig ⟨qid, 1⟩)
              ∈ st.assigns := by
  rintro ⟨dir, w, xdr, pi, pi0, pi1, po, po0, po1, poe, pic, poc⟩ ii oi n
    hx hd
  cases dir with
  | o => simp [Dir.hasI] at hd
  | oe => simp [Dir.hasI] at hd
  | i =>
    subst hx
    have hred := xdr1_i_eq pi pi0 pi1 po po0 po1 poe pic poc w n ii oi
    refine ⟨⟨n + invSize ii, w⟩, (none, none), _, hred, rfl,
      Nat.le_add_right n (invSize ii), ?_⟩
    intro b hb
    have hb1 : b < (ixorOut pi ii n).width := by
      rw [ixorOut_width]; exact hb
    exact ⟨n + invSize ii + 1 + b,
      List.mem_append_right _ (fdce_mem_dffInsts _ _ hb1),
      dffAssign_mem _ _ hb1⟩
  | io =>
    subst hx
    have hred := xdr1_io_eq pi pi0 pi1 po po0 po1 poe pic poc w n ii oi
    refine ⟨⟨n + invSize ii + invSize oi, w⟩, _, _, hred, rfl,
      by show n ≤ n + invSize ii + invSize oi; omega, ?_⟩
    intro b hb
    have hb1 : b < (ixorOut pi ii n).width := by
      rw [ixorOut_width]; exact hb
    refine ⟨n + invSize ii + invSize oi + 3 + b, ?_, ?_⟩
    · refine List.mem_append_left _ (List.mem_append_left _ ?_)
      exact List.mem_append_right _ (fdce_mem_dffInsts _ _ hb1)
    · refine List.mem_append_left _ (List.mem_append_left _ ?_)
      exact dffAssign_mem _ _ hb1

/-- Claim C2, witness: the amended theorem applied to the concrete one-bit
input pin in mode 1. -/
theorem c2_sdr_input_path_witness :
    (mkPin .i 1).xdr = 1 ∧ (mkPin .i 1).dir.hasI = true ∧
    (∃ (iS : Sig) (ot : Option Expr × Option Expr) (st : ElabSt),
      _get_xdr_buffer (mkPin .i 1) (some true) none ⟨9, [], []⟩ =
        some ((some (.sig iS), ot), st) ∧
      iS.width = (mkPin .i 1).width ∧ 9 ≤ iS.id ∧
      ∀ b, b < (mkPin .i 1).i.width →
        ∃ qid,
          fdceInst (mkPin .i 1).i_clk (.sig iS) b qid ∈ st.insts ∧
          (Expr.idx (.sig (ixorOut (mkPin .i 1).i (some true) 9)) b,
            Expr.sig ⟨qid, 1⟩) ∈ st.assigns) :=
  ⟨rfl, rfl, c2_sdr_input_path (mkPin .i 1) (some true) none 9 rfl rfl⟩

/-! ### Claim C3 -/

/-- Claim C3.  For every pin with input direction and data-rate mode 2, one
`IDDR2` per bit is instantiated with complementary clocks `i_clk` and its
inverse (both bound inside `iddrInst`); its phase-1 output binds directly to
the phase-1 destination signal `pin_i1[b]`, while its phase-0 output binds to
the intermediate signal `ff[b]`, which passes through exactly one `FDCE`
clocked by `i_clk` before reaching the phase-0 destination `pin_i0[b]` — the
final clause states that no other assignment drives that destination bit, so
the re-registering stage is the unique extra stage (the deliberate
one-cycle-latency trade noted in the source). -/
theorem c3_ddr_input_path :
    ∀ (pin : Pin) (ii oi : Option Bool) (n : Nat),
      pin.xdr = 2 → pin.dir.hasI = true → pin.wf n →
      ∃ (iS ff : Sig) (ot : Option Expr × Option Expr) (st : ElabSt),
        _get_xdr_buffer pin ii oi ⟨n, [], []⟩ =
          some ((some (.sig iS), ot), st) ∧
        ff.width = pin.i0.width ∧
        ∀ b, b < pin.i0.width →
          iddrInst pin.i_clk iS ff (ixorOut pin.i1 ii (n + invSize ii)) b
            ∈ st.insts ∧
          ∃ qid,
            fdceInst pin.i_clk (.sig ff) b qid ∈ st.insts ∧
            (Expr.idx (.sig (ixorOut pin.i0 ii n)) b, Expr.sig ⟨qid, 1⟩)
              ∈ st.assigns ∧
            ∀ pr ∈ st.assigns,
              pr.1 = Expr.idx (.sig (ixorOut pin.i0 ii n)) b →
              pr.2 = Expr.sig ⟨qid, 1⟩ := by
  rintro ⟨dir, w, xdr, pi, pi0, pi1, po, po0, po1, poe, pic, poc⟩ ii oi n
    hx hd hw
  obtain ⟨-, hwi0, -, -, -, -, -, -, -⟩ := hw
  cases dir with
  | o => simp [Dir.hasI] at hd
  | oe => simp [Dir.hasI] at hd
  | i =>
    subst hx
    have hred := xdr2_i_eq pi pi0 pi1 po po0 po1 poe pic poc w n ii oi
    refine ⟨⟨n + invSize ii + invSize ii, w⟩,
      ⟨n + invSize ii + invSize ii + 1, (ixorOut pi0 ii n).width⟩,
      (none, none), _, hred, ixorOut_width pi0 ii n, ?_⟩
    intro b hb
    have hb1 : b < (ixorOut pi0 ii n).width := by
      rw [ixorOut_width]; exact hb
    refine ⟨?_, n + invSize ii + invSize ii + 2 + b, ?_, ?_, ?_⟩
    · exact List.mem_append_right _ (iddr_mem_iddrInsts _ _ _ _ hb1)
    · exact List.mem_append_left _
        (List.mem_append_right _ (fdce_mem_dffInsts _ _ hb1))
    · exact dffAssign_mem _ _ hb1
    · intro pr hpr hpr1
      obtain ⟨b', hb', rfl⟩ := mem_dffAssigns hpr
      simp only [Expr.idx.injEq] at hpr1
      obtain ⟨-, rfl⟩ := hpr1
      rfl
  | io =>
    subst hx
    have hred := xdr2_io_eq pi pi0 pi1 po po0 po1 poe pic poc w n ii oi
    refine ⟨⟨n + invSize ii + invSize ii + invSize oi + invSize oi, w⟩,
      ⟨n + invSize ii + invSize ii + invSize oi + invSize oi + 3,
       (ixorOut pi0 ii n).width⟩, _, _, hred, ixorOut_width pi0 ii n, ?_⟩
    intro b hb
    have hb1 : b < (ixorOut pi0 ii n).width := by
      rw [ixorOut_width]; exact hb
    refine ⟨?_,
      n + invSize ii + invSize ii + invSize oi + invSize oi + 4 + b,
      ?_, ?_, ?_⟩
    · refine List.mem_append_left _ (List.mem_append_left _ ?_)
      exact List.mem_append_right _ (iddr_mem_iddrInsts _ _ _ _ hb1)
    · refine List.mem_append_left _ (List.mem_append_left _
        (List.mem_append_left _ ?_))
      exact List.mem_append_right _ (fdce_mem_dffInsts _ _ hb1)
    · exact List.mem_append_left _ (dffAssign_mem _ _ hb1)
    · intro pr hpr hpr1
      rcases List.mem_append.1 hpr with hpr | hpr
      · obtain ⟨b', hb', rfl⟩ := mem_dffAssigns hpr
        simp only [Expr.idx.injEq] at hpr1
        obtain ⟨-, rfl⟩ := hpr1
        rfl
      · exfalso
        obtain ⟨b', hb', rfl⟩ := mem_dffAssigns hpr
        simp only [Expr.idx.injEq, Expr.sig.injEq] at hpr1
        obtain ⟨h1, -⟩ := hpr1
        replace hwi0 : pi0.id < n := hwi0
        cases ii with
        | none =>
          have h2 := congrArg Sig.id h1
          simp [ixorOut, invSize] at h2
          omega
        | some inv =>
          have h2 := congrArg Sig.id h1
          simp [ixorOut, invSize] at h2
          omega

/-- Claim C3, witness: the theorem applied to the concrete one-bit input pin
in mode 2 with inversion requested. -/
theorem c3_ddr_input_path_witness :
    (mkPin .i 2).xdr = 2 ∧ (mkPin .i 2).dir.hasI = true ∧
    (mkPin .i 2).wf 9 ∧
    (∃ (iS ff : Sig) (ot : Option Expr × Option Expr) (st : ElabSt),
      _get_xdr_buffer (mkPin .i 2) (some true) none ⟨9, [], []⟩ =
        some ((some (.sig iS), ot), st) ∧
      ff.width = (mkPin .i 2).i0.width ∧
      ∀ b, b < (mkPin .i 2).i0.width →
        iddrInst (mkPin .i 2).i_clk iS ff
          (ixorOut (mkPin .i 2).i1 (some true) (9 + invSize (some true))) b
          ∈ st.insts ∧
        ∃ qid,
          fdceInst (mkPin .i 2).i_clk (.sig ff) b qid ∈ st.insts ∧
          (Expr.idx (.sig (ixorOut (mkPin .i 2).i0 (some true) 9)) b,
            Expr.sig ⟨qid, 1⟩) ∈ st.assigns ∧
          ∀ pr ∈ st.assigns,
            pr.1 = Expr.idx (.sig (ixorOut (mkPin .i 2).i0 (some true) 9)) b →
            pr.2 = Expr.sig ⟨qid, 1⟩) :=
  ⟨rfl, rfl, by decide,
    c3_ddr_input_path (mkPin .i 2) (some true) none 9 rfl rfl (by decide)⟩

/-! ### Claim C4 -/

/-- Claim C4, counterexample.  In data-rate mode 0 the returned fields are
not freshly allocated signals: for the concrete input pin, the returned `i`
is the descriptor's own `pin.i = ⟨0, 1⟩`, whose allocation id 0 predates the
fresh-signal supply 9 of the call; and for the concrete tristate pin the
returned `t` is the complement expression `~oe`, not an allocated signal at
all. -/
theorem c4_counterexample :
    _get_xdr_buffer (mkPin .i 0) none none ⟨9, [], []⟩ =
      some ((some (.sig ⟨0, 1⟩), none, none), ⟨10, [], []⟩) ∧
    (mkPin .i 0).i = ⟨0, 1⟩ ∧
    (⟨0, 1⟩ : Sig).id < 9 ∧
    _get_xdr_buffer (mkPin .oe 0) none none ⟨9, [], []⟩ =
      some ((none, some (.sig ⟨3, 1⟩), some (.not (.sig ⟨6, 1⟩))),
            ⟨11, [], []⟩) ∧
    (mkPin .oe 0).o = ⟨3, 1⟩ ∧ (mkPin .oe 0).oe = ⟨6, 1⟩ := by
  refine ⟨by decide, rfl, by decide, by decide, rfl, rfl⟩

/-- Claim C4, amended.  In data-rate modes 1 and 2, every populated field of
the returned triple is a freshly allocated signal created by the assembler —
of the descriptor's width for `i` and `o` and 1 bit for `t` — and the fields
are populated exactly according to the pin's direction.  (In mode 0, which
the counterexample exhibits, the returned fields instead alias the possibly
inverted descriptor signals, and `t` is the complement expression of `oe`,
not an allocated signal.) -/
theorem c4_fresh_triple :
    ∀ (pin : Pin) (ii oi : Option Bool) (n : Nat),
      pin.xdr = 1 ∨ pin.xdr = 2 →
      ∃ (tr : Option Expr × Option Expr × Option Expr) (st : ElabSt),
        _get_xdr_buffer pin ii oi ⟨n, [], []⟩ = some (tr, st) ∧
        (∀ e, tr.1 = some e →
          ∃ s : Sig, e = .sig s ∧ n ≤ s.id ∧ s.width = pin.width) ∧
        (∀ e, tr.2.1 = some e →
          ∃ s : Sig, e = .sig s ∧ n ≤ s.id ∧ s.width = pin.width) ∧
        (∀ e, tr.2.2 = some e →
          ∃ s : Sig, e = .sig s ∧ n ≤ s.id ∧ s.width = 1) ∧
        tr.1.isSome = pin.dir.hasI ∧
        tr.2.1.isSome = pin.dir.hasO ∧
        tr.2.2.isSome = pin.dir.hasT := by
  rintro ⟨dir, w, xdr, pi, pi0, pi1, po, po0, po1, poe, pic, poc⟩ ii oi n hx
  rcases hx with hx | hx <;> subst hx <;> cases dir
  · refine ⟨_, _, xdr1_i_eq pi pi0 pi1 po po0 po1 poe pic poc w n ii oi,
      ?_, ?_, ?_, rfl, rfl, rfl⟩
    · intro e he
      obtain rfl := Option.some.inj he
      exact ⟨_, rfl, Nat.le_add_right n _, rfl⟩
    · intro e he; simp at he
    · intro e he; simp at he
  · refine ⟨_, _, xdr1_o_eq pi pi0 pi1 po po0 po1 poe pic poc w n ii oi,
      ?_, ?_, ?_, rfl, rfl, rfl⟩
    · intro e he; simp at he
    · intro e he
      obtain rfl := Option.some.inj he
      exact ⟨_, rfl, Nat.le_add_right n _, rfl⟩
    · intro e he; simp at he
  · refine ⟨_, _, xdr1_oe_eq pi pi0 pi1 po po0 po1 poe pic poc w n ii oi,
      ?_, ?_, ?_, rfl, rfl, rfl⟩
    · intro e he; simp at he
    · intro e he
      obtain rfl := Option.some.inj he
      exact ⟨_, rfl, Nat.le_add_right n _, rfl⟩
    · intro e he
      obtain rfl := Option.some.inj he
      exact ⟨_, rfl, by show n ≤ n + invSize oi + 1; omega, rfl⟩
  · refine ⟨_, _, xdr1_io_eq pi pi0 pi1 po po0 po1 poe pic poc w n ii oi,
      ?_, ?_, ?_, rfl, rfl, rfl⟩
    · intro e he
      obtain rfl := Option.some.inj he
      exact ⟨_, rfl, by show n ≤ n + invSize ii + invSize oi; omega, rfl⟩
    · intro e he
      obtain rfl := Option.some.inj he
      exact ⟨_, rfl, by show n ≤ n + invSize ii + invSize oi + 1; omega, rfl⟩
    · intro e he
      obtain rfl := Option.some.inj he
      exact ⟨_, rfl, by show n ≤ n + invSize ii + invSize oi + 2; omega, rfl⟩
  · refine ⟨_, _, xdr2_i_eq pi pi0 pi1 po po0 po1 poe pic poc w n ii oi,
      ?_, ?_, ?_, rfl, rfl, rfl⟩
    · intro e he
      obtain rfl := Option.some.inj he
      exact ⟨_, rfl, by show n ≤ n + invSize ii + invSize ii; omega, rfl⟩
    · intro e he; simp at he
    · intro e he; simp at he
  · refine ⟨_, _, xdr2_o_eq pi pi0 pi1 po po0 po1 poe pic poc w n ii oi,
      ?_, ?_, ?_, rfl, rfl, rfl⟩
    · intro e he; simp at he
    · intro e he
      obtain rfl := Option.some.inj he
      exact ⟨_, rfl, by show n ≤ n + invSize oi + invSize oi; omega, rfl⟩
    · intro e he; simp at he
  · refine ⟨_, _, xdr2_oe_eq pi pi0 pi1 po po0 po1 poe pic poc w n ii oi,
      ?_, ?_, ?_, rfl, rfl, rfl⟩
    · intro e he; simp at he
    · intro e he
      obtain rfl := Option.some.inj he
      exact ⟨_, rfl, by show n ≤ n + invSize oi + invSize oi; omega, rfl⟩
    · intro e he
      obtain rfl := Option.some.inj he
      exact ⟨_, rfl, by show n ≤ n + invSize oi + invSize oi + 1; omega, rfl⟩
  · refine ⟨_, _, xdr2_io_eq pi pi0 pi1 po po0 po1 poe pic poc w n ii oi,
      ?_, ?_, ?_, rfl, rfl, rfl⟩
    · intro e he
      obtain rfl := Option.some.inj he
      exact ⟨_, rfl,
        by show n ≤ n + invSize ii + invSize ii + invSize oi + invSize oi
           omega, rfl⟩
    · intro e he
      obtain rfl := Option.some.inj he
      exact ⟨_, rfl,
        by show n ≤ n + invSize ii + invSize ii + invSize oi + invSize oi + 1
           omega, rfl⟩
    · intro e he
      obtain rfl := Option.some.inj he
      exact ⟨_, rfl,
        by show n ≤ n + invSize ii + invSize ii + invSize oi + invSize oi + 2
           omega, rfl⟩

/-- Claim C4, witness: the amended theorem applied to the concrete one-bit
bidirectional pin in mode 2. -/
theorem c4_fresh_triple_witness :
    ((mkPin .io 2).xdr = 1 ∨ (mkPin .io 2).xdr = 2) ∧
    (∃ (tr : Option Expr × Option Expr × Option Expr) (st : ElabSt),
      _get_xdr_buffer (mkPin .io 2) (some true) (some true) ⟨9, [], []⟩ =
        some (tr, st) ∧
      (∀ e, tr.1 = some e →
        ∃ s : Sig, e = .sig s ∧ 9 ≤ s.id ∧ s.width = (mkPin .io 2).width) ∧
      (∀ e, tr.2.1 = some e →
        ∃ s : Sig, e = .sig s ∧ 9 ≤ s.id ∧ s.width = (mkPin .io 2).width) ∧
      (∀ e, tr.2.2 = some e →
        ∃ s : Sig, e = .sig s ∧ 9 ≤ s.id ∧ s.width = 1) ∧
      tr.1.isSome = (mkPin .io 2).dir.hasI ∧
      tr.2.1.isSome = (mkPin .io 2).dir.hasO ∧
      tr.2.2.isSome = (mkPin .io 2).dir.hasT) :=
  ⟨Or.inr rfl,
    c4_fresh_triple (mkPin .io 2) (some true) (some true) 9 (Or.inr rfl)⟩

/-! ### Claim C5 -/

/-- Claim C5.  For every pin whose direction is tristate-output or
bidirectional: in mode 0 the returned tristate control is the combinational
complement `~oe`; in modes 1 and 2 it is a fresh 1-bit signal driven by a
single-rate `FDCE` clocked by `o_clk` whose data input is `(~oe)[0]`, that
register being the unique driver of the control bit; and no `ODDR2` output
port ever drives the control bit, even when the data path is mode 2. -/
theorem c5_tristate_control :
    ∀ (pin : Pin) (ii oi : Option Bool) (n : Nat),
      pin.dir.hasT = true → pin.wf n →
      (pin.xdr = 0 →
        ∃ (ie oe_ : Option Expr) (st : ElabSt),
          _get_xdr_buffer pin ii oi ⟨n, [], []⟩ =
            some ((ie, oe_, some (.not (.sig pin.oe))), st)) ∧
      (pin.xdr = 1 ∨ pin.xdr = 2 →
        ∃ (ie oe_ : Option Expr) (tS : Sig) (qid : Nat) (st : ElabSt),
          _get_xdr_buffer pin ii oi ⟨n, [], []⟩ =
            some ((ie, oe_, some (.sig tS)), st) ∧
          tS.width = 1 ∧
          fdceInst pin.o_clk (.not (.sig pin.oe)) 0 qid ∈ st.insts ∧
          (Expr.idx (.sig tS) 0, Expr.sig ⟨qid, 1⟩) ∈ st.assigns ∧
          (∀ pr ∈ st.assigns, pr.1 = Expr.idx (.sig tS) 0 →
            pr.2 = Expr.sig ⟨qid, 1⟩) ∧
          (∀ inst ∈ st.insts, inst.kind = "ODDR2" →
            ("o_Q", Expr.idx (.sig tS) 0) ∉ inst.ports)) := by
  rintro ⟨dir, w, xdr, pi, pi0, pi1, po, po0, po1, poe, pic, poc⟩ ii oi n
    hd hw
  obtain ⟨hwi, hwi0, -, -, -, -, -, -, -⟩ := hw
  replace hwi : pi.id < n := hwi
  replace hwi0 : pi0.id < n := hwi0
  constructor
  · intro hx; subst hx
    cases dir with
    | i => simp [Dir.hasT] at hd
    | o => simp [Dir.hasT] at hd
    | oe =>
      exact ⟨_, _, _, xdr0_oe_eq pi pi0 pi1 po po0 po1 poe pic poc w n ii oi⟩
    | io =>
      exact ⟨_, _, _, xdr0_io_eq pi pi0 pi1 po po0 po1 poe pic poc w n ii oi⟩
  · rintro (hx | hx)
    · subst hx
      cases dir with
      | i => simp [Dir.hasT] at hd
      | o => simp [Dir.hasT] at hd
      | oe =>
        refine ⟨none, some (.sig ⟨n + invSize oi, w⟩),
          ⟨n + invSize oi + 1, 1⟩, n + invSize oi + 2 + w, _,
          xdr1_oe_eq pi pi0 pi1 po po0 po1 poe pic poc w n ii oi, rfl,
          ?_, ?_, ?_, ?_⟩
        · exact List.mem_append_right _
            (fdce_mem_dffInsts _ _ Nat.zero_lt_one)
        · exact List.mem_append_right _
            (dffAssign_mem _ _ Nat.zero_lt_one)
        · intro pr hpr hpr1
          rcases List.mem_append.1 hpr with hpr | hpr
          · exfalso
            obtain ⟨b', hb', rfl⟩ := mem_dffAssigns hpr
            simp only [Expr.idx.injEq, Expr.sig.injEq, Sig.mk.injEq] at hpr1
            omega
          · obtain ⟨b', hb', rfl⟩ := mem_dffAssigns hpr
            replace hb' : b' < 1 := hb'
            have hb0 : b' = 0 := by omega
            subst hb0
            rfl
        · intro inst hm hk
          rcases List.mem_append.1 hm with hm | hm
          · rcases List.mem_append.1 hm with hm | hm
            · obtain ⟨inv, b, -, -, rfl⟩ := mem_oxorLuts hm
              simp [lutInst] at hk
            · simp [dffInsts_kind hm] at hk
          · simp [dffInsts_kind hm] at hk
      | io =>
        refine ⟨some (.sig ⟨n + invSize ii + invSize oi, w⟩),
          some (.sig ⟨n + invSize ii + invSize oi + 1, w⟩),
          ⟨n + invSize ii + invSize oi + 2, 1⟩,
          n + invSize ii + invSize oi + 3 + (ixorOut pi ii n).width + w, _,
          xdr1_io_eq pi pi0 pi1 po po0 po1 poe pic poc w n ii oi, rfl,
          ?_, ?_, ?_, ?_⟩
        · exact List.mem_append_right _
            (fdce_mem_dffInsts _ _ Nat.zero_lt_one)
        · exact List.mem_append_right _
            (dffAssign_mem _ _ Nat.zero_lt_one)
        · intro pr hpr hpr1
          rcases List.mem_append.1 hpr with hpr | hpr
          · exfalso
            rcases List.mem_append.1 hpr with hpr | hpr
            · obtain ⟨b', hb', rfl⟩ := mem_dffAssigns hpr
              simp only [Expr.idx.injEq, Expr.sig.injEq] at hpr1
              obtain ⟨h1, -⟩ := hpr1
              have h2 := congrArg Sig.id h1
              cases ii with
              | none => simp [ixorOut, invSize] at h2; omega
              | some inv => simp [ixorOut, invSize] at h2; omega
            · obtain ⟨b', hb', rfl⟩ := mem_dffAssigns hpr
              simp only [Expr.idx.injEq, Expr.sig.injEq, Sig.mk.injEq]
                at hpr1
              omega
          · obtain ⟨b', hb', rfl⟩ := mem_dffAssigns hpr
            replace hb' : b' < 1 := hb'
            have hb0 : b' = 0 := by omega
            subst hb0
            rfl
        · intro inst hm hk
          rcases List.mem_append.1 hm with hm | hm
          · rcases List.mem_append.1 hm with hm | hm
            · rcases List.mem_append.1 hm with hm | hm
              · rcases List.mem_append.1 hm with hm | hm
                · obtain ⟨inv, b, -, -, rfl⟩ := mem_ixorLuts hm
                  simp [lutInst] at hk
                · obtain ⟨inv, b, -, -, rfl⟩ := mem_oxorLuts hm
                  simp [lutInst] at hk
              · simp [dffInsts_kind hm] at hk
            · simp [dffInsts_kind hm] at hk
          · simp [dffInsts_kind hm] at hk
    · subst hx
      cases dir with
      | i => simp [Dir.hasT] at hd
      | o => simp [Dir.hasT] at hd
      | oe =>
        refine ⟨none, some (.sig ⟨n + invSize oi + invSize oi, w⟩),
          ⟨n + invSize oi + invSize oi + 1, 1⟩,
          n + invSize oi + invSize oi + 2, _,
          xdr2_oe_eq pi pi0 pi1 po po0 po1 poe pic poc w n ii oi, rfl,
          ?_, ?_, ?_, ?_⟩
        · exact List.mem_append_right _
            (fdce_mem_dffInsts _ _ Nat.zero_lt_one)
        · exact dffAssign_mem _ _ Nat.zero_lt_one
        · intro pr hpr hpr1
          obtain ⟨b', hb', rfl⟩ := mem_dffAssigns hpr
          replace hb' : b' < 1 := hb'
          have hb0 : b' = 0 := by omega
          subst hb0
          rfl
        · intro inst hm hk
          rcases List.mem_append.1 hm with hm | hm
          · rcases List.mem_append.1 hm with hm | hm
            · rcases List.mem_append.1 hm with hm | hm
              · obtain ⟨inv, b, -, -, rfl⟩ := mem_oxorLuts hm
                simp [lutInst] at hk
              · obtain ⟨inv, b, -, -, rfl⟩ := mem_oxorLuts hm
                simp [lutInst] at hk
            · obtain ⟨b, hb, rfl⟩ := mem_oddrInsts hm
              intro hp
              simp only [oddrInst, List.mem_cons, Prod.mk.injEq,
                List.not_mem_nil, or_false] at hp
              rcases hp with hp | hp | hp | hp | hp | hp | hp | hp <;>
                simp only [Expr.idx.injEq, Expr.sig.injEq, Expr.not.injEq,
                  Expr.const.injEq, Sig.mk.injEq, String.reduceEq,
                  false_and, and_false] at hp
              omega
          · simp [dffInsts_kind hm] at hk
      | io =>
        refine ⟨some (.sig ⟨n + invSize ii + invSize ii + invSize oi
                            + invSize oi, w⟩),
          some (.sig ⟨n + invSize ii + invSize ii + invSize oi
                        + invSize oi + 1, w⟩),
          ⟨n + invSize ii + invSize ii + invSize oi + invSize oi + 2, 1⟩,
          n + invSize ii + invSize ii + invSize oi + invSize oi + 4
            + (ixorOut pi0 ii n).width, _,
          xdr2_io_eq pi pi0 pi1 po po0 po1 poe pic poc w n ii oi, rfl,
          ?_, ?_, ?_, ?_⟩
        · exact List.mem_append_right _
            (fdce_mem_dffInsts _ _ Nat.zero_lt_one)
        · exact List.mem_append_right _
            (dffAssign_mem _ _ Nat.zero_lt_one)
        · intro pr hpr hpr1
          rcases List.mem_append.1 hpr with hpr | hpr
          · exfalso
            obtain ⟨b', hb', rfl⟩ := mem_dffAssigns hpr
            simp only [Expr.idx.injEq, Expr.sig.injEq] at hpr1
            obtain ⟨h1, -⟩ := hpr1
            have h2 := congrArg Sig.id h1
            cases ii with
            | none => simp [ixorOut, invSize] at h2; omega
            | some inv => simp [ixorOut, invSize] at h2; omega
          · obtain ⟨b', hb', rfl⟩ := mem_dffAssigns hpr
            replace hb' : b' < 1 := hb'
            have hb0 : b' = 0 := by omega
            subst hb0
            rfl
        · intro inst hm hk
          rcases List.mem_append.1 hm with hm | hm
          · rcases List.mem_append.1 hm with hm | hm
            · rcases List.mem_append.1 hm with hm | hm
              · rcases List.mem_append.1 hm with hm | hm
                · rcases List.mem_append.1 hm with hm | hm
                  · rcases List.mem_append.1 hm with hm | hm
                    · rcases List.mem_append.1 hm with hm | hm
                      · obtain ⟨inv, b, -, -, rfl⟩ := mem_ixorLuts hm
                        simp [lutInst] at hk
                      · obtain ⟨inv, b, -, -, rfl⟩ := mem_ixorLuts hm
                        simp [lutInst] at hk
                    · obtain ⟨inv, b, -, -, rfl⟩ := mem_oxorLuts hm
                      simp [lutInst] at hk
                  · obtain ⟨inv, b, -, -, rfl⟩ := mem_oxorLuts hm
                    simp [lutInst] at hk
                · simp [dffInsts_kind hm] at hk
              · simp [iddrInsts_kind hm] at hk
            · obtain ⟨b, hb, rfl⟩ := mem_oddrInsts hm
              intro hp
              simp only [oddrInst, List.mem_cons, Prod.mk.injEq,
                List.not_mem_nil, or_false] at hp
              rcases hp with hp | hp | hp | hp | hp | hp | hp | hp <;>
                simp only [Expr.idx.injEq, Expr.sig.injEq, Expr.not.injEq,
                  Expr.const.injEq, Sig.mk.injEq, String.reduceEq,
                  false_and, and_false] at hp
              omega
          · simp [dffInsts_kind hm] at hk

/-- Claim C5, witness: the theorem applied to the concrete one-bit
bidirectional pin in mode 2. -/
theorem c5_tristate_control_witness :
    (mkPin .io 2).dir.hasT = true ∧ (mkPin .io 2).wf 9 ∧
    ((mkPin .io 2).xdr = 1 ∨ (mkPin .io 2).xdr = 2) ∧
    (∃ (ie oe_ : Option Expr) (tS : Sig) (qid : Nat) (st : ElabSt),
      _get_xdr_buffer (mkPin .io 2) none none ⟨9, [], []⟩ =
        some ((ie, oe_, some (.sig tS)), st) ∧
      tS.width = 1 ∧
      fdceInst (mkPin .io 2).o_clk (.not (.sig (mkPin .io 2).oe)) 0 qid
        ∈ st.insts ∧
      (Expr.idx (.sig tS) 0, Expr.sig ⟨qid, 1⟩) ∈ st.assigns ∧
      (∀ pr ∈ st.assigns, pr.1 = Expr.idx (.sig tS) 0 →
        pr.2 = Expr.sig ⟨qid, 1⟩) ∧
      (∀ inst ∈ st.insts, inst.kind = "ODDR2" →
        ("o_Q", Expr.idx (.sig tS) 0) ∉ inst.ports)) :=
  ⟨rfl, by decide, Or.inr rfl,
    (c5_tristate_control (mkPin .io 2) none none 9 rfl (by decide)).2
      (Or.inr rfl)⟩

/-! ### Claim C6 -/

/-- Claim C6.  For every signal and inversion flag, each injector returns the
signal unchanged and emits nothing when the flag is absent; otherwise it
allocates a fresh same-width signal and emits exactly one `LUT1` per bit,
whose truth-table constant is `0b01` when the flag is true and `0b10` when it
is false — and, by the `LUT1` value semantics, `0b01` computes the complement
of the single input while `0b10` computes the identity, so no other function
ever appears. -/
theorem c6_inversion_injector :
    ∀ (y : Sig) (n : Nat) (I : List Inst) (A : List (Expr × Expr)),
      get_ixor y none ⟨n, I, A⟩ = (y, ⟨n, I, A⟩) ∧
      get_oxor y none ⟨n, I, A⟩ = (y, ⟨n, I, A⟩) ∧
      (∀ inv, get_ixor y (some inv) ⟨n, I, A⟩ =
        (⟨n, y.width⟩,
         ⟨n + 1,
          I ++ (List.range y.width).map (fun b =>
            lutInst (lutInit inv) (.idx (.sig ⟨n, y.width⟩) b)
              (.idx (.sig y) b)), A⟩)) ∧
      (∀ inv, get_oxor y (some inv) ⟨n, I, A⟩ =
        (⟨n, y.width⟩,
         ⟨n + 1,
          I ++ (List.range y.width).map (fun b =>
            lutInst (lutInit inv) (.idx (.sig y) b)
              (.idx (.sig ⟨n, y.width⟩) b)), A⟩)) ∧
      lutInit true = 1 ∧ lutInit false = 2 ∧
      (∀ b, lut1 (lutInit true) b = !b) ∧
      (∀ b, lut1 (lutInit false) b = b) ∧
      (∀ init e1 e2, (lutInst init e1 e2).kind = "LUT1" ∧
        (lutInst init e1 e2).params = [("p_INIT", PVal.n init)]) := by
  intro y n I A
  refine ⟨rfl, rfl, ?_, ?_, rfl, rfl, ?_, ?_, fun init e1 e2 => ⟨rfl, rfl⟩⟩
  · intro inv
    exact get_ixor_eq y (some inv) n I A
  · intro inv
    exact get_oxor_eq y (some inv) n I A
  · intro b; cases b <;> rfl
  · intro b; cases b <;> rfl

/-! ### Claim C9 -/

/-- Claim C9.  For every width and input value, passing a value through the
`LUT1` network emitted by the output-side injector and then the one emitted
by the input-side injector, with matching flags, yields the original value:
the two complement stages compose to the identity (and the absent/false-flag
stages are identities outright). -/
theorem c9_inversion_roundtrip :
    ∀ (invert : Option Bool) (v : List Bool),
      ixorFun invert (oxorFun invert v) = v := by
  intro invert v
  cases invert with
  | none => rfl
  | some inv =>
    induction v with
    | nil => rfl
    | cons hd tl ih =>
      have htl : List.map (lut1 (lutInit inv))
          (List.map (lut1 (lutInit inv)) tl) = tl := by
        simpa [ixorFun, oxorFun] using ih
      show List.map (lut1 (lutInit inv))
        (List.map (lut1 (lutInit inv)) (hd :: tl)) = hd :: tl
      rw [List.map_cons, List.map_cons, htl]
      cases inv <;> cases hd <;> rfl

/-! ### Claim C1 -/

/-- Claim C1, counterexample.  The topology dispatch layer exposes eight
public buffer-construction entry points, not seven: the differential
direction set has four members, not three, because
`get_diff_input_output` (`EntryPoint.diff_input_output`) exists alongside
the differential input, output and tristate entry points. -/
theorem c1_counterexample :
    entryPoints.length = 8 ∧ entryPoints.length ≠ 7 ∧
    (entryPoints.filter (fun ep => ep.isDifferential)).length ≠ 3 ∧
    EntryPoint.diff_input_output ∈ entryPoints := by
  decide

/-- Claim C1, amended.  The topology dispatch layer exposes exactly eight
public buffer-construction entry points, one per I/O electrical topology:
four single-ended directions and four differential directions, pairwise
distinct and exhaustive over the dispatch enumeration. -/
theorem c1_entry_points :
    entryPoints.length = 8 ∧
    (entryPoints.filter (fun ep => ep.isDifferential)).length = 4 ∧
    (entryPoints.filter (fun ep => !ep.isDifferential)).length = 4 ∧
    entryPoints.Nodup ∧
    ∀ ep : EntryPoint, ep ∈ entryPoints := by
  refine ⟨by decide, by decide, by decide, by decide, ?_⟩
  intro ep
  cases ep <;> decide

/-! ### Claim C7 -/

/-- Claim C7.  Every public topology entry point validates the requested
data-rate mode against {0, 1, 2} (and, since every call site passes
`valid_attrs=True`, accepts the attributes) before any elaboration state
exists: with a mode outside {0, 1, 2} each entry point returns the
unsupported-feature configuration error carrying its own feature string, and
no module — hence not a single primitive instance — is produced. -/
theorem c7_reject_unsupported :
    ∀ (ep : EntryPoint) (pin : Pin) (p np : Sig) (invert : Bool) (n : Nat),
      pin.xdr ≠ 0 → pin.xdr ≠ 1 → pin.xdr ≠ 2 →
      applyEntry ep pin p np invert n =
        .error (.unsupported ep.feature) ∧
      ∀ st : ElabSt, applyEntry ep pin p np invert n ≠ .ok st := by
  intro ep pin p np invert n h0 h1 h2
  have hchk : ∀ f,
      _check_feature f pin [0, 1, 2] = .error (.unsupported f) := by
    intro f
    simp [_check_feature, h0, h1, h2]
  have heq : applyEntry ep pin p np invert n =
      .error (.unsupported ep.feature) := by
    cases ep <;>
      simp [applyEntry, get_input, get_output, get_tristate,
        get_input_output, get_diff_input, get_diff_output,
        get_diff_tristate, get_diff_input_output, EntryPoint.feature, hchk]
  exact ⟨heq, fun st h => by rw [heq] at h; exact Except.noConfusion h⟩

/-- Claim C7, witness: the single-ended input entry point applied to a pin
requesting mode 3. -/
theorem c7_reject_unsupported_witness :
    (mkPin .i 3).xdr ≠ 0 ∧ (mkPin .i 3).xdr ≠ 1 ∧ (mkPin .i 3).xdr ≠ 2 ∧
    (applyEntry .input (mkPin .i 3) ⟨100, 1⟩ ⟨101, 1⟩ false 9 =
      .error (.unsupported EntryPoint.input.feature) ∧
    ∀ st : ElabSt,
      applyEntry .input (mkPin .i 3) ⟨100, 1⟩ ⟨101, 1⟩ false 9 ≠ .ok st) :=
  ⟨by decide, by decide, by decide,
    c7_reject_unsupported .input (mkPin .i 3) ⟨100, 1⟩ ⟨101, 1⟩ false 9
      (by decide) (by decide) (by decide)⟩

/-! ### Claim C8 -/

/-- Claim C8.  If a pin descriptor with a data-rate mode outside {0, 1, 2}
reaches the XDR buffer assembler, the assembler halts on the failed
`assert False` (modelled as `none`) instead of returning a coerced result;
under the dispatchers' precondition that the mode is in {0, 1, 2}, the
assembler always returns a result, so the assertion branch is
unreachable. -/
theorem c8_assert_unreachable :
    ∀ (pin : Pin) (ii oi : Option Bool) (st : ElabSt),
      (pin.xdr ≠ 0 → pin.xdr ≠ 1 → pin.xdr ≠ 2 →
        _get_xdr_buffer pin ii oi st = none) ∧
      (pin.xdr = 0 ∨ pin.xdr = 1 ∨ pin.xdr = 2 →
        (_get_xdr_buffer pin ii oi st).isSome = true) := by
  intro pin ii oi st
  constructor
  · intro h0 h1 h2
    simp [_get_xdr_buffer, h0, h1, h2]
  · rintro (hx | hx | hx) <;> simp [_get_xdr_buffer, hx]

/-- Claim C8, witness: the assembler halts at mode 3 and returns a result at
mode 2. -/
theorem c8_assert_unreachable_witness :
    ((mkPin .i 3).xdr ≠ 0 ∧ (mkPin .i 3).xdr ≠ 1 ∧ (mkPin .i 3).xdr ≠ 2 ∧
      _get_xdr_buffer (mkPin .i 3) none none ⟨9, [], []⟩ = none) ∧
    ((mkPin .io 2).xdr = 0 ∨ (mkPin .io 2).xdr = 1 ∨
      (mkPin .io 2).xdr = 2) ∧
    (_get_xdr_buffer (mkPin .io 2) none none ⟨9, [], []⟩).isSome = true :=
  ⟨⟨by decide, by decide, by decide,
     (c8_assert_unreachable (mkPin .i 3) none none ⟨9, [], []⟩).1
       (by decide) (by decide) (by decide)⟩,
   Or.inr (Or.inr rfl),
   (c8_assert_unreachable (mkPin .io 2) none none ⟨9, [], []⟩).2
     (Or.inr (Or.inr rfl))⟩

/-! ### Claim C10 machinery: tracing `LUT1` parameters to the flags -/

/-- Every `LUT1` among the emitted instances carries the truth-table constant
selected by one of the inversion flags actually passed in. -/
def LutProp (ii oi : Option Bool) (inst : Inst) : Prop :=
  inst.kind = "LUT1" →
    ∃ inv, (ii = some inv ∨ oi = some inv) ∧
      inst.params = [("p_INIT", PVal.n (lutInit inv))]

theorem lutProp_append {ii oi : Option Bool} {L1 L2 : List Inst}
    (h1 : ∀ inst ∈ L1, LutProp ii oi inst)
    (h2 : ∀ inst ∈ L2, LutProp ii oi inst) :
    ∀ inst ∈ L1 ++ L2, LutProp ii oi inst := by
  intro inst hm
  rcases List.mem_append.1 hm with hm | hm
  exacts [h1 inst hm, h2 inst hm]

theorem lutProp_ixorLuts (y : Sig) (ii oi : Option Bool) (m : Nat) :
    ∀ inst ∈ ixorLuts y ii m, LutProp ii oi inst := by
  intro inst hm
  obtain ⟨inv, b, hflag, -, rfl⟩ := mem_ixorLuts hm
  exact fun _ => ⟨inv, Or.inl hflag, rfl⟩

theorem lutProp_oxorLuts (a : Sig) (ii oi : Option Bool) (m : Nat) :
    ∀ inst ∈ oxorLuts a oi m, LutProp ii oi inst := by
  intro inst hm
  obtain ⟨inv, b, hflag, -, rfl⟩ := mem_oxorLuts hm
  exact fun _ => ⟨inv, Or.inr hflag, rfl⟩

theorem lutProp_dffInsts (clk : Sig) (d : Expr) (w m : Nat)
    (ii oi : Option Bool) :
    ∀ inst ∈ dffInsts clk d w m, LutProp ii oi inst := by
  intro inst hm hk
  have hkind := dffInsts_kind hm
  rw [hkind] at hk
  exact absurd hk (by decide)

theorem lutProp_iddrInsts (clk d q0 q1 : Sig) (ii oi : Option Bool) :
    ∀ inst ∈ iddrInsts clk d q0 q1, LutProp ii oi inst := by
  intro inst hm hk
  have hkind := iddrInsts_kind hm
  rw [hkind] at hk
  exact absurd hk (by decide)

theorem lutProp_oddrInsts (clk d0 d1 q : Sig) (ii oi : Option Bool) :
    ∀ inst ∈ oddrInsts clk d0 d1 q, LutProp ii oi inst := by
  intro inst hm hk
  have hkind := oddrInsts_kind hm
  rw [hkind] at hk
  exact absurd hk (by decide)

/-- Every `LUT1` instance the assembler emits traces back to one of the
inversion flags it was given. -/
theorem xdr_lut_insts :
    ∀ (pin : Pin) (ii oi : Option Bool) (n : Nat)
      (r : Option Expr × Option Expr × Option Expr) (st : ElabSt),
      _get_xdr_buffer pin ii oi ⟨n, [], []⟩ = some (r, st) →
      ∀ inst ∈ st.insts, LutProp ii oi inst := by
  rintro ⟨dir, w, xdr, pi, pi0, pi1, po, po0, po1, poe, pic, poc⟩ ii oi n
    r st h
  rcases xdr with - | - | - | xdr
  · cases dir
    · rw [xdr0_i_eq pi pi0 pi1 po po0 po1 poe pic poc w n ii oi] at h
      simp only [Option.some.injEq, Prod.mk.injEq] at h
      obtain ⟨-, rfl⟩ := h
      exact lutProp_ixorLuts pi ii oi n
    · rw [xdr0_o_eq pi pi0 pi1 po po0 po1 poe pic poc w n ii oi] at h
      simp only [Option.some.injEq, Prod.mk.injEq] at h
      obtain ⟨-, rfl⟩ := h
      exact lutProp_oxorLuts po ii oi n
    · rw [xdr0_oe_eq pi pi0 pi1 po po0 po1 poe pic poc w n ii oi] at h
      simp only [Option.some.injEq, Prod.mk.injEq] at h
      obtain ⟨-, rfl⟩ := h
      exact lutProp_oxorLuts po ii oi n
    · rw [xdr0_io_eq pi pi0 pi1 po po0 po1 poe pic poc w n ii oi] at h
      simp only [Option.some.injEq, Prod.mk.injEq] at h
      obtain ⟨-, rfl⟩ := h
      exact lutProp_append (lutProp_ixorLuts pi ii oi n)
        (lutProp_oxorLuts po ii oi (n + invSize ii))
  · cases dir
    · rw [xdr1_i_eq pi pi0 pi1 po po0 po1 poe pic poc w n ii oi] at h
      simp only [Option.some.injEq, Prod.mk.injEq] at h
      obtain ⟨-, rfl⟩ := h
      exact lutProp_append (lutProp_ixorLuts pi ii oi n)
        (lutProp_dffInsts _ _ _ _ ii oi)
    · rw [xdr1_o_eq pi pi0 pi1 po po0 po1 poe pic poc w n ii oi] at h
      simp only [Option.some.injEq, Prod.mk.injEq] at h
      obtain ⟨-, rfl⟩ := h
      exact lutProp_append (lutProp_oxorLuts po ii oi n)
        (lutProp_dffInsts _ _ _ _ ii oi)
    · rw [xdr1_oe_eq pi pi0 pi1 po po0 po1 poe pic poc w n ii oi] at h
      simp only [Option.some.injEq, Prod.mk.injEq] at h
      obtain ⟨-, rfl⟩ := h
      exact lutProp_append (lutProp_append (lutProp_oxorLuts po ii oi n)
        (lutProp_dffInsts _ _ _ _ ii oi)) (lutProp_dffInsts _ _ _ _ ii oi)
    · rw [xdr1_io_eq pi pi0 pi1 po po0 po1 poe pic poc w n ii oi] at h
      simp only [Option.some.injEq, Prod.mk.injEq] at h
      obtain ⟨-, rfl⟩ := h
      exact lutProp_append (lutProp_append (lutProp_append
        (lutProp_append (lutProp_ixorLuts pi ii oi n)
          (lutProp_oxorLuts po ii oi (n + invSize ii)))
        (lutProp_dffInsts _ _ _ _ ii oi)) (lutProp_dffInsts _ _ _ _ ii oi))
        (lutProp_dffInsts _ _ _ _ ii oi)
  · cases dir
    · rw [xdr2_i_eq pi pi0 pi1 po po0 po1 poe pic poc w n ii oi] at h
      simp only [Option.some.injEq, Prod.mk.injEq] at h
      obtain ⟨-, rfl⟩ := h
      exact lutProp_append (lutProp_append (lutProp_append
        (lutProp_ixorLuts pi0 ii oi n)
        (lutProp_ixorLuts pi1 ii oi (n + invSize ii)))
        (lutProp_dffInsts _ _ _ _ ii oi)) (lutProp_iddrInsts _ _ _ _ ii oi)
    · rw [xdr2_o_eq pi pi0 pi1 po po0 po1 poe pic poc w n ii oi] at h
      simp only [Option.some.injEq, Prod.mk.injEq] at h
      obtain ⟨-, rfl⟩ := h
      exact lutProp_append (lutProp_append (lutProp_oxorLuts po0 ii oi n)
        (lutProp_oxorLuts po1 ii oi (n + invSize oi)))
        (lutProp_oddrInsts _ _ _ _ ii oi)
    · rw [xdr2_oe_eq pi pi0 pi1 po po0 po1 poe pic poc w n ii oi] at h
      simp only [Option.some.injEq, Prod.mk.injEq] at h
      obtain ⟨-, rfl⟩ := h
      exact lutProp_append (lutProp_append (lutProp_append
        (lutProp_oxorLuts po0 ii oi n)
        (lutProp_oxorLuts po1 ii oi (n + invSize oi)))
        (lutProp_oddrInsts _ _ _ _ ii oi)) (lutProp_dffInsts _ _ _ _ ii oi)
    · rw [xdr2_io_eq pi pi0 pi1 po po0 po1 poe pic poc w n ii oi] at h
      simp only [Option.some.injEq, Prod.mk.injEq] at h
      obtain ⟨-, rfl⟩ := h
      exact lutProp_append (lutProp_append (lutProp_append (lutProp_append
        (lutProp_append (lutProp_append (lutProp_append
          (lutProp_ixorLuts pi0 ii oi n)
          (lutProp_ixorLuts pi1 ii oi (n + invSize ii)))
          (lutProp_oxorLuts po0 ii oi (n + invSize ii + invSize ii)))
          (lutProp_oxorLuts po1 ii oi
            (n + invSize ii + invSize ii + invSize oi)))
          (lutProp_dffInsts _ _ _ _ ii oi))
          (lutProp_iddrInsts _ _ _ _ ii oi))
          (lutProp_oddrInsts _ _ _ _ ii oi))
          (lutProp_dffInsts _ _ _ _ ii oi)
  · simp [_get_xdr_buffer] at h

/-- Whether an entry point forwards the caller's `invert` to the assembler's
input-side flag (`i_invert=True if invert else None`). -/
def EntryPoint.iFlag : EntryPoint → Bool
  | .input => true
  | .input_output => true
  | .diff_input => true
  | .diff_input_output => true
  | _ => false

/-- Whether an entry point forwards the caller's `invert` to the assembler's
output-side flag. -/
def EntryPoint.oFlag : EntryPoint → Bool
  | .output => true
  | .tristate => true
  | .input_output => true
  | .diff_output => true
  | .diff_tristate => true
  | .diff_input_output => true
  | _ => false

theorem pad_foldl_insts (g : Nat → Inst) (w : Nat) (st : ElabSt) :
    ((List.range w).foldl (fun m b => emit m (g b)) st).insts =
      st.insts ++ (List.range w).map g := by
  rcases st with ⟨n, I, A⟩
  rw [emit_foldl]

/-- Every successful entry-point elaboration consists of the assembler's
module (run with the flags selected by the entry point's direction and the
caller's `invert`) followed by pad-buffer instances, none of which is a
`LUT1`. -/
theorem applyEntry_insts :
    ∀ (ep : EntryPoint) (pin : Pin) (p np : Sig) (invert : Bool) (n : Nat)
      (st : ElabSt),
      applyEntry ep pin p np invert n = .ok st →
      ∃ (r : Option Expr × Option Expr × Option Expr) (stB : ElabSt)
        (pads : List Inst),
        _get_xdr_buffer pin
            (if ep.iFlag && invert then some true else none)
            (if ep.oFlag && invert then some true else none)
            ⟨n, [], []⟩ = some (r, stB) ∧
        st.insts = stB.insts ++ pads ∧
        ∀ inst ∈ pads, inst.kind ≠ "LUT1" := by
  intro ep pin p np invert n st h
  cases ep <;>
    simp only [applyEntry, get_input, get_output, get_tristate,
      get_input_output, get_diff_input, get_diff_output, get_diff_tristate,
      get_diff_input_output, EntryPoint.iFlag, EntryPoint.oFlag,
      Bool.true_and, Bool.false_and, Bool.false_eq_true, if_false] at h ⊢ <;>
  · rcases hchk : _check_feature _ pin [0, 1, 2] with e | u <;>
      rw [hchk] at h
    · exact absurd h (by simp)
    · rcases hbuf : _get_xdr_buffer pin _ _ ⟨n, [], []⟩ with - | pr <;>
        rw [hbuf] at h
      · exact absurd h (by simp)
      · obtain ⟨⟨ie, oe_, te⟩, m⟩ := pr
        rcases ie with - | iE <;> rcases oe_ with - | oE <;>
          rcases te with - | tE <;>
          simp only [Except.ok.injEq] at h <;>
          first
          | exact absurd h (by simp)
          | (subst h
             exact ⟨_, m, _, rfl, pad_foldl_insts _ _ m, by
               intro inst hm
               obtain ⟨b, -, rfl⟩ := List.mem_map.1 hm
               simp⟩)
  -- (unreachable)

theorem buffer_lut_none {pin : Pin} {n : Nat}
    {r : Option Expr × Option Expr × Option Expr} {stB : ElabSt}
    (h : _get_xdr_buffer pin none none ⟨n, [], []⟩ = some (r, stB)) :
    ∀ inst ∈ stB.insts, inst.kind ≠ "LUT1" := by
  intro inst hm hk
  obtain ⟨inv, hor, -⟩ := xdr_lut_insts pin none none n r stB h inst hm hk
  rcases hor with h' | h' <;> exact Option.noConfusion h'

theorem buffer_lut_true {pin : Pin} {ii oi : Option Bool} {n : Nat}
    {r : Option Expr × Option Expr × Option Expr} {stB : ElabSt}
    (hii : ii = none ∨ ii = some true) (hoi : oi = none ∨ oi = some true)
    (h : _get_xdr_buffer pin ii oi ⟨n, [], []⟩ = some (r, stB)) :
    ∀ inst ∈ stB.insts, inst.kind = "LUT1" →
      inst.params = [("p_INIT", PVal.n 1)] := by
  intro inst hm hk
  obtain ⟨inv, hor, hp⟩ := xdr_lut_insts pin ii oi n r stB h inst hm hk
  have hinv : inv = true := by
    rcases hor with h' | h'
    · rcases hii with h'' | h'' <;> rw [h''] at h'
      · exact Option.noConfusion h'
      · exact (Option.some.inj h').symm
    · rcases hoi with h'' | h'' <;> rw [h''] at h'
      · exact Option.noConfusion h'
      · exact (Option.some.inj h').symm
  subst hinv
  exact hp

/-! ### Claim C10 -/

/-- Claim C10.  Through every public entry point, the inversion flag handed
to the assembler is either `True` (inversion requested) or `None` (absent),
never `False`; consequently every `LUT1` primitive emitted via the public
interface carries truth-table constant `0b01` (the complement), the identity
table `0b10` is unreachable, and with inversion not requested no `LUT1` is
emitted at all. -/
theorem c10_lut_invariant :
    ∀ (ep : EntryPoint) (pin : Pin) (p np : Sig) (n : Nat) (st : ElabSt),
      (applyEntry ep pin p np false n = .ok st →
        ∀ inst ∈ st.insts, inst.kind ≠ "LUT1") ∧
      (applyEntry ep pin p np true n = .ok st →
        ∀ inst ∈ st.insts, inst.kind = "LUT1" →
          inst.params = [("p_INIT", PVal.n 1)]) := by
  intro ep pin p np n st
  constructor
  · intro h
    obtain ⟨r, stB, pads, hbuf, hinsts, hpads⟩ :=
      applyEntry_insts ep pin p np false n st h
    rw [Bool.and_false, Bool.and_false] at hbuf
    replace hbuf : _get_xdr_buffer pin none none ⟨n, [], []⟩ =
        some (r, stB) := by simpa using hbuf
    intro inst hm
    rw [hinsts] at hm
    rcases List.mem_append.1 hm with hm | hm
    · exact buffer_lut_none hbuf inst hm
    · exact hpads inst hm
  · intro h
    obtain ⟨r, stB, pads, hbuf, hinsts, hpads⟩ :=
      applyEntry_insts ep pin p np true n st h
    rw [Bool.and_true, Bool.and_true] at hbuf
    have hii : (if ep.iFlag then some true else (none : Option Bool)) = none
        ∨ (if ep.iFlag then some true else (none : Option Bool)) =
          some true := by
      cases ep.iFlag <;> simp
    have hoi : (if ep.oFlag then some true else (none : Option Bool)) = none
        ∨ (if ep.oFlag then some true else (none : Option Bool)) =
          some true := by
      cases ep.oFlag <;> simp
    intro inst hm hk
    rw [hinsts] at hm
    rcases List.mem_append.1 hm with hm | hm
    · exact buffer_lut_true hii hoi hbuf inst hm hk
    · exact absurd hk (hpads inst hm)

/-- Claim C10, witness: the single-ended input entry point on the concrete
one-bit pin, with and without inversion. -/
theorem c10_lut_invariant_witness :
    (applyEntry .input (mkPin .i 0) ⟨100, 1⟩ ⟨101, 1⟩ false 9 =
        .ok ⟨10, [⟨"IBUF", [],
              [("i_I", .idx (.sig ⟨100, 1⟩) 0),
               ("o_O", .idx (.sig ⟨0, 1⟩) 0)]⟩], []⟩ ∧
      ∀ inst ∈ ([⟨"IBUF", [],
              [("i_I", .idx (.sig ⟨100, 1⟩) 0),
               ("o_O", .idx (.sig ⟨0, 1⟩) 0)]⟩] : List Inst),
        inst.kind ≠ "LUT1") ∧
    (applyEntry .input (mkPin .i 0) ⟨100, 1⟩ ⟨101, 1⟩ true 9 =
        .ok ⟨11, [lutInst 1 (.idx (.sig ⟨9, 1⟩) 0) (.idx (.sig ⟨0, 1⟩) 0),
              ⟨"IBUF", [],
               [("i_I", .idx (.sig ⟨100, 1⟩) 0),
                ("o_O", .idx (.sig ⟨9, 1⟩) 0)]⟩], []⟩ ∧
      ∀ inst ∈ ([lutInst 1 (.idx (.sig ⟨9, 1⟩) 0) (.idx (.sig ⟨0, 1⟩) 0),
              ⟨"IBUF", [],
               [("i_I", .idx (.sig ⟨100, 1⟩) 0),
                ("o_O", .idx (.sig ⟨9, 1⟩) 0)]⟩] : List Inst),
        inst.kind = "LUT1" → inst.params = [("p_INIT", PVal.n 1)]) := by
  constructor
  · refine ⟨rfl, ?_⟩
    have h := (c10_lut_invariant .input (mkPin .i 0) ⟨100, 1⟩ ⟨101, 1⟩ 9
      ⟨10, [⟨"IBUF", [],
        [("i_I", .idx (.sig ⟨100, 1⟩) 0),
         ("o_O", .idx (.sig ⟨0, 1⟩) 0)]⟩], []⟩).1 rfl
    exact h
  · refine ⟨rfl, ?_⟩
    have h := (c10_lut_invariant .input (mkPin .i 0) ⟨100, 1⟩ ⟨101, 1⟩ 9
      ⟨11, [lutInst 1 (.idx (.sig ⟨9, 1⟩) 0) (.idx (.sig ⟨0, 1⟩) 0),
        ⟨"IBUF", [],
         [("i_I", .idx (.sig ⟨100, 1⟩) 0),
          ("o_O", .idx (.sig ⟨9, 1⟩) 0)]⟩], []⟩).2 rfl
    exact h

end XilinxSpartan6
